import Mathlib

/-!
Shallow embedding of the sorting-visualizer core
(`src/src/components/SortingVisualizer.js`).

Arrays of JS numbers are modelled as `List α` over a type `α` carrying the
strict order used by the code's `<` / `>` comparisons (the theorems
instantiate `α` with a linear order, matching JS numbers).  Reading
`array[i]` is `getE a i` (`List.getD` with the default element; every access
performed by the code is in bounds), writing `array[i] = v` is `List.set`.

A recorded animation move (`{indices, type, value}` objects in the source)
is the inductive `Move`.  Replaying a move against an array, as `animate`
(source lines 72-96) does, is `applyMove`; replaying a whole move log is
`applyMoves`.
-/

/-- Read `array[i]` with the JS semantics used by the code (all reads the
engines perform are in bounds, so the default value never leaks). -/
def getE {α : Type} [Inhabited α] (a : List α) (i : ℕ) : α :=
  a.getD i default

/-- One recorded elementary mutation: `{indices:[i,j], type:"swap"}` or
`{indices:[i], type:"overwrite", value}` in the source. -/
inductive Move (α : Type) where
  | swap (i j : ℕ)
  | overwrite (i : ℕ) (value : α)
  deriving DecidableEq, Repr

/-- Replaying one move, as `animate` does (source lines 80-84):
`[array[i], array[j]] = [array[j], array[i]]` for a swap (the right-hand
pair is evaluated before either write), `array[i] = move.value` for an
overwrite. -/
def applyMove {α : Type} [Inhabited α] (a : List α) : Move α → List α
  | Move.swap i j => (a.set i (getE a j)).set j (getE a i)
  | Move.overwrite i v => a.set i v

/-- Replaying a whole move log in order. -/
def applyMoves {α : Type} [Inhabited α] (a : List α) (mv : List (Move α)) : List α :=
  mv.foldl applyMove a

/-- Every index mentioned by a move lies inside an array of length `n`. -/
def MoveInBounds {α : Type} (n : ℕ) : Move α → Prop
  | Move.swap i j => i < n ∧ j < n
  | Move.overwrite i _ => i < n

instance {α : Type} (n : ℕ) (m : Move α) : Decidable (MoveInBounds n m) := by
  cases m with
  | swap i j => exact inferInstanceAs (Decidable (_ ∧ _))
  | overwrite i v => exact inferInstanceAs (Decidable (_ < _))

/-- Recognizer for `{type: "swap"}` moves. -/
def Move.isSwap {α : Type} : Move α → Bool
  | Move.swap _ _ => true
  | Move.overwrite _ _ => false

/-- Recognizer for `{type: "overwrite"}` moves. -/
def Move.isOverwrite {α : Type} : Move α → Bool
  | Move.swap _ _ => false
  | Move.overwrite _ _ => true

namespace SortViz

variable {α : Type} [Inhabited α]

theorem getE_eq_getElem (a : List α) (i : ℕ) (h : i < a.length) :
    getE a i = a[i] :=
  List.getD_eq_getElem a default h

theorem getE_cons_zero (x : α) (xs : List α) : getE (x :: xs) 0 = x :=
  List.getD_cons_zero

theorem getE_cons_succ (x : α) (xs : List α) (k : ℕ) :
    getE (x :: xs) (k + 1) = getE xs k :=
  List.getD_cons_succ

theorem getE_set_self (a : List α) (i : ℕ) (v : α) (h : i < a.length) :
    getE (a.set i v) i = v := by
  rw [getE_eq_getElem _ _ (by simpa using h)]
  exact List.getElem_set_self _

theorem getE_set_ne (a : List α) (i j : ℕ) (v : α) (h : i ≠ j) :
    getE (a.set i v) j = getE a j := by
  unfold getE
  rcases Nat.lt_or_ge j a.length with hj | hj
  · rw [List.getD_eq_getElem _ _ (by simpa using hj), List.getD_eq_getElem _ _ hj]
    exact List.getElem_set_ne h _
  · rw [List.getD_eq_default _ _ (by simpa using hj), List.getD_eq_default _ _ hj]

theorem getE_set (a : List α) (i j : ℕ) (v : α) (hj : j < a.length) :
    getE (a.set i v) j = if i = j then v else getE a j := by
  by_cases h : i = j
  · subst h; simp [getE_set_self a i v hj]
  · simp [h, getE_set_ne a i j v h]

theorem length_applyMove (a : List α) (m : Move α) :
    (applyMove a m).length = a.length := by
  cases m <;> simp [applyMove]

theorem length_applyMoves (a : List α) (mv : List (Move α)) :
    (applyMoves a mv).length = a.length := by
  induction mv generalizing a with
  | nil => rfl
  | cons m mv ih =>
    show (applyMoves (applyMove a m) mv).length = a.length
    rw [ih, length_applyMove]

theorem applyMoves_nil (a : List α) : applyMoves a [] = a := rfl

theorem applyMoves_cons (a : List α) (m : Move α) (mv : List (Move α)) :
    applyMoves a (m :: mv) = applyMoves (applyMove a m) mv := rfl

theorem applyMoves_append (a : List α) (mv₁ mv₂ : List (Move α)) :
    applyMoves a (mv₁ ++ mv₂) = applyMoves (applyMoves a mv₁) mv₂ := by
  simp [applyMoves, List.foldl_append]

/-- Pulling the element at an in-bounds position to the front while writing
`x` into that position is a permutation of consing `x`. -/
theorem perm_getE_set (x : α) : ∀ (xs : List α) (k : ℕ), k < xs.length →
    (getE xs k :: xs.set k x).Perm (x :: xs) := by
  intro xs
  induction xs with
  | nil => intro k hk; simp at hk
  | cons y ys ih =>
    intro k hk
    cases k with
    | zero =>
      simp only [getE_cons_zero, List.set_cons_zero]
      exact List.Perm.swap x y ys
    | succ m =>
      have hm : m < ys.length := by simpa using hk
      simp only [getE_cons_succ, List.set_cons_succ]
      exact (List.Perm.swap y (getE ys m) (ys.set m x)).trans
        ((List.Perm.cons y (ih m hm)).trans (List.Perm.swap x y ys))

/-- Replaying a swap move with both indices in bounds permutes the array. -/
theorem perm_swap_positions : ∀ (a : List α) (i j : ℕ),
    i < a.length → j < a.length →
    ((a.set i (getE a j)).set j (getE a i)).Perm a := by
  intro a
  induction a with
  | nil => intro i j hi; simp at hi
  | cons x xs ih =>
    intro i j hi hj
    cases i with
    | zero =>
      cases j with
      | zero => simp [getE_cons_zero]
      | succ t =>
        have ht : t < xs.length := by simpa using hj
        simp only [getE_cons_zero, getE_cons_succ, List.set_cons_zero,
          List.set_cons_succ]
        exact perm_getE_set x xs t ht
    | succ s =>
      cases j with
      | zero =>
        have hs : s < xs.length := by simpa using hi
        simp only [getE_cons_zero, getE_cons_succ, List.set_cons_succ,
          List.set_cons_zero]
        exact perm_getE_set x xs s hs
      | succ t =>
        have hs : s < xs.length := by simpa using hi
        have ht : t < xs.length := by simpa using hj
        simp only [getE_cons_succ, List.set_cons_succ]
        exact List.Perm.cons x (ih s t hs ht)

theorem perm_applyMove_of_swap (a : List α) (i j : ℕ)
    (hi : i < a.length) (hj : j < a.length) :
    (applyMove a (Move.swap i j)).Perm a :=
  perm_swap_positions a i j hi hj

section MergeEngine

variable [LT α] [DecidableRel ((· < ·) : α → α → Prop)]

/-- The overwrite moves pushed while copying the values of a list into
consecutive positions starting at `originalIndex = k`: every iteration of
the three `while` loops of `merge` (source lines 160-185) pushes
`{indices: [originalIndex], type: "overwrite", value}` for the value it
writes. -/
def writeMoves (k : ℕ) : List α → List (Move α)
  | [] => []
  | v :: rest => Move.overwrite k v :: writeMoves (k + 1) rest

/-- The `merge` helper (source lines 155-188), with `k` the running
`originalIndex`.  The main loop takes the left element exactly when
`left[leftIndex] < right[rightIndex]` (so ties go to the right half); the
two trailing loops drain the remainders.  It returns the pushed moves
together with the merged contents written into `originalArray`. -/
def merge (k : ℕ) : List α → List α → List (Move α) × List α
  | [], r => (writeMoves k r, r)
  | l, [] => (writeMoves k l, l)
  | x :: l, y :: r =>
    if x < y then
      let p := merge (k + 1) l (y :: r)
      (Move.overwrite k x :: p.1, x :: p.2)
    else
      let p := merge (k + 1) (x :: l) r
      (Move.overwrite k y :: p.1, y :: p.2)
termination_by l r => l.length + r.length

/-- The recursive `mergeSort` (source lines 145-153): split at
`mid = floor(length / 2)` (`slice(0, mid)` and `slice(mid)`), recursively
sort the two halves, then merge them, accumulating the recorded moves in
recursion order. -/
def mergeSortE (a : List α) : List (Move α) × List α :=
  if a.length ≤ 1 then ([], a)
  else
    let L := mergeSortE (a.take (a.length / 2))
    let R := mergeSortE (a.drop (a.length / 2))
    let M := merge 0 L.2 R.2
    (L.1 ++ R.1 ++ M.1, M.2)
termination_by a.length
decreasing_by
  · simp only [List.length_take]
    omega
  · simp only [List.length_drop]
    omega

theorem merge_moves_eq_writeMoves : ∀ (k : ℕ) (l r : List α),
    (merge k l r).1 = writeMoves k (merge k l r).2 := by
  intro k l r
  induction l generalizing k r with
  | nil => simp [merge]
  | cons x l ihl =>
    induction r generalizing k with
    | nil => simp [merge]
    | cons y r ihr =>
      rw [merge]
      by_cases h : x < y
      · simp only [h, if_pos, writeMoves]
        rw [ihl]
      · simp only [h, if_neg, not_false_iff, writeMoves]
        rw [ihr]

theorem merge_length : ∀ (k : ℕ) (l r : List α),
    (merge k l r).2.length = l.length + r.length := by
  intro k l r
  induction l generalizing k r with
  | nil => simp [merge]
  | cons x l ihl =>
    induction r generalizing k with
    | nil => simp [merge]
    | cons y r ihr =>
      rw [merge]
      by_cases h : x < y
      · simp only [h, if_pos, List.length_cons]
        rw [ihl]
        simp [Nat.add_assoc, Nat.add_comm, Nat.add_left_comm]
      · simp only [h, if_neg, not_false_iff, List.length_cons]
        rw [ihr]
        simp [Nat.add_assoc, Nat.add_comm, Nat.add_left_comm]

theorem merge_perm : ∀ (k : ℕ) (l r : List α),
    (merge k l r).2.Perm (l ++ r) := by
  intro k l r
  induction l generalizing k r with
  | nil => simp [merge]
  | cons x l ihl =>
    induction r generalizing k with
    | nil => simp [merge]
    | cons y r ihr =>
      rw [merge]
      by_cases h : x < y
      · simp only [h, if_pos]
        exact List.Perm.cons x (ihl (k + 1) (y :: r))
      · simp only [h, if_neg, not_false_iff]
        refine (List.Perm.cons y (ihr (k + 1))).trans ?_
        exact List.perm_middle.symm

end MergeEngine

section MergeSorted

variable {β : Type} [Inhabited β] [LinearOrder β]

theorem merge_sorted : ∀ (l r : List β) (k : ℕ),
    l.Sorted (· ≤ ·) → r.Sorted (· ≤ ·) → (merge k l r).2.Sorted (· ≤ ·) := by
  intro l
  induction l with
  | nil => intro r k _ hr; simpa [merge] using hr
  | cons x l ihl =>
    intro r
    induction r with
    | nil => intro k hl _; simpa [merge] using hl
    | cons y r ihr =>
      intro k hl hr
      have hl' := (List.sorted_cons.mp hl)
      have hr' := (List.sorted_cons.mp hr)
      rw [merge]
      by_cases h : x < y
      · simp only [h, if_pos]
        rw [List.sorted_cons]
        refine ⟨?_, ihl (y :: r) (k + 1) hl'.2 hr⟩
        intro b hb
        have hb' : b ∈ l ++ (y :: r) :=
          (merge_perm (k + 1) l (y :: r)).mem_iff.mp hb
        rcases List.mem_append.mp hb' with hbl | hbr
        · exact hl'.1 b hbl
        · rcases List.mem_cons.mp hbr with rfl | hbr
          · exact le_of_lt h
          · exact le_trans (le_of_lt h) (hr'.1 b hbr)
      · simp only [h, if_neg, not_false_iff]
        rw [List.sorted_cons]
        refine ⟨?_, ihr (k + 1) hl hr'.2⟩
        intro b hb
        have hyx : y ≤ x := le_of_not_lt h
        have hb' : b ∈ (x :: l) ++ r :=
          (merge_perm (k + 1) (x :: l) r).mem_iff.mp hb
        rcases List.mem_append.mp hb' with hbl | hbr
        · rcases List.mem_cons.mp hbl with rfl | hbl
          · exact hyx
          · exact le_trans hyx (hl'.1 b hbl)
        · exact hr'.1 b hbr

end MergeSorted

section MergeSortLemmas

variable [LT α] [DecidableRel ((· < ·) : α → α → Prop)]

theorem writeMoves_replay : ∀ (l b₁ b₂ : List α) (k : ℕ), b₁.length = k →
    b₂.length = l.length → applyMoves (b₁ ++ b₂) (writeMoves k l) = b₁ ++ l := by
  intro l
  induction l with
  | nil =>
    intro b₁ b₂ k hk hlen
    have : b₂ = [] := List.length_eq_zero.mp hlen
    subst this
    rfl
  | cons v rest ih =>
    intro b₁ b₂ k hk hlen
    cases b₂ with
    | nil => simp at hlen
    | cons c cs =>
      show applyMoves (applyMove (b₁ ++ c :: cs) (Move.overwrite k v))
        (writeMoves (k + 1) rest) = b₁ ++ v :: rest
      have hset : applyMove (b₁ ++ c :: cs) (Move.overwrite k v) = (b₁ ++ [v]) ++ cs := by
        show (b₁ ++ c :: cs).set k v = (b₁ ++ [v]) ++ cs
        rw [List.set_append]
        have hnot : ¬ k < b₁.length := by omega
        rw [if_neg hnot]
        subst hk
        simp
      rw [hset, ih (b₁ ++ [v]) cs (k + 1) (by simp [hk]) (by simpa using hlen)]
      simp

theorem writeMoves_bounds : ∀ (l : List α) (k : ℕ) (m : Move α),
    m ∈ writeMoves k l → ∃ i v, m = Move.overwrite i v ∧ k ≤ i ∧ i < k + l.length := by
  intro l
  induction l with
  | nil => intro k m hm; simp [writeMoves] at hm
  | cons v rest ih =>
    intro k m hm
    rcases List.mem_cons.mp hm with rfl | hm
    · exact ⟨k, v, rfl, le_refl k, by simp⟩
    · obtain ⟨i, w, hmw, hki, hilt⟩ := ih (k + 1) m hm
      exact ⟨i, w, hmw, by omega, by simp at hilt ⊢; omega⟩

theorem moveInBounds_mono {n n' : ℕ} (m : Move α) (h : MoveInBounds n m)
    (hle : n ≤ n') : MoveInBounds n' m := by
  cases m with
  | swap i j => exact ⟨lt_of_lt_of_le h.1 hle, lt_of_lt_of_le h.2 hle⟩
  | overwrite i v => exact lt_of_lt_of_le h hle

theorem mergeSortE_length_fuel : ∀ (n : ℕ) (a : List α), a.length ≤ n →
    (mergeSortE a).2.length = a.length := by
  intro n
  induction n with
  | zero =>
    intro a ha
    rw [mergeSortE, if_pos (by omega)]
  | succ n ih =>
    intro a ha
    by_cases h : a.length ≤ 1
    · rw [mergeSortE, if_pos h]
    · rw [mergeSortE, if_neg h]
      dsimp only
      rw [merge_length,
        ih (a.take (a.length / 2)) (by simp [List.length_take]; omega),
        ih (a.drop (a.length / 2)) (by simp [List.length_drop]; omega)]
      simp [List.length_take, List.length_drop]
      omega

theorem mergeSortE_length (a : List α) : (mergeSortE a).2.length = a.length :=
  mergeSortE_length_fuel a.length a (le_refl _)

theorem mergeSortE_perm_fuel : ∀ (n : ℕ) (a : List α), a.length ≤ n →
    (mergeSortE a).2.Perm a := by
  intro n
  induction n with
  | zero =>
    intro a ha
    rw [mergeSortE, if_pos (by omega)]
  | succ n ih =>
    intro a ha
    by_cases h : a.length ≤ 1
    · rw [mergeSortE, if_pos h]
    · rw [mergeSortE, if_neg h]
      dsimp only
      refine (merge_perm 0 _ _).trans ?_
      have hL := ih (a.take (a.length / 2)) (by simp [List.length_take]; omega)
      have hR := ih (a.drop (a.length / 2)) (by simp [List.length_drop]; omega)
      calc ((mergeSortE (a.take (a.length / 2))).2 ++
            (mergeSortE (a.drop (a.length / 2))).2).Perm
            (a.take (a.length / 2) ++ a.drop (a.length / 2)) := hL.append hR
        _ = a := List.take_append_drop _ a

theorem mergeSortE_perm (a : List α) : (mergeSortE a).2.Perm a :=
  mergeSortE_perm_fuel a.length a (le_refl _)

theorem mergeSortE_replay_fuel : ∀ (n : ℕ) (a : List α), a.length ≤ n →
    applyMoves a (mergeSortE a).1 = (mergeSortE a).2 := by
  intro n
  induction n with
  | zero =>
    intro a ha
    rw [mergeSortE, if_pos (by omega)]
    rfl
  | succ n ih =>
    intro a ha
    by_cases h : a.length ≤ 1
    · rw [mergeSortE, if_pos h]
      rfl
    · rw [mergeSortE, if_neg h]
      dsimp only
      rw [applyMoves_append, applyMoves_append]
      rw [merge_moves_eq_writeMoves]
      have hblen :
          (applyMoves (applyMoves a (mergeSortE (a.take (a.length / 2))).1)
            (mergeSortE (a.drop (a.length / 2))).1).length = a.length := by
        rw [length_applyMoves, length_applyMoves]
      have hmlen :
          (merge 0 (mergeSortE (a.take (a.length / 2))).2
            (mergeSortE (a.drop (a.length / 2))).2).2.length = a.length := by
        rw [merge_length, mergeSortE_length, mergeSortE_length]
        simp [List.length_take, List.length_drop]
        omega
      have := writeMoves_replay
        ((merge 0 (mergeSortE (a.take (a.length / 2))).2
          (mergeSortE (a.drop (a.length / 2))).2).2)
        []
        (applyMoves (applyMoves a (mergeSortE (a.take (a.length / 2))).1)
          (mergeSortE (a.drop (a.length / 2))).1)
        0 rfl (by rw [hblen, hmlen])
      simpa using this

theorem mergeSortE_replay (a : List α) :
    applyMoves a (mergeSortE a).1 = (mergeSortE a).2 :=
  mergeSortE_replay_fuel a.length a (le_refl _)

theorem mergeSortE_bounds_fuel : ∀ (n : ℕ) (a : List α), a.length ≤ n →
    ∀ m ∈ (mergeSortE a).1, MoveInBounds a.length m := by
  intro n
  induction n with
  | zero =>
    intro a ha m hm
    rw [mergeSortE, if_pos (by omega)] at hm
    simp at hm
  | succ n ih =>
    intro a ha m hm
    by_cases h : a.length ≤ 1
    · rw [mergeSortE, if_pos h] at hm
      simp at hm
    · rw [mergeSortE, if_neg h] at hm
      dsimp only at hm
      rcases List.mem_append.mp hm with hm' | hm3
      · rcases List.mem_append.mp hm' with hm1 | hm2
        · have := ih (a.take (a.length / 2)) (by simp [List.length_take]; omega) m hm1
          refine moveInBounds_mono m this ?_
          simp [List.length_take]
        · have := ih (a.drop (a.length / 2)) (by simp [List.length_drop]; omega) m hm2
          refine moveInBounds_mono m this ?_
          simp [List.length_drop]
      · rw [merge_moves_eq_writeMoves] at hm3
        obtain ⟨i, v, rfl, _, hilt⟩ := writeMoves_bounds _ 0 m hm3
        show i < a.length
        rw [merge_length, mergeSortE_length, mergeSortE_length] at hilt
        simp [List.length_take, List.length_drop] at hilt
        omega

theorem mergeSortE_bounds (a : List α) :
    ∀ m ∈ (mergeSortE a).1, MoveInBounds a.length m :=
  mergeSortE_bounds_fuel a.length a (le_refl _)

end MergeSortLemmas

section MergeSortSorted

variable {β : Type} [Inhabited β] [LinearOrder β]

theorem sorted_of_length_le_one {a : List β} (h : a.length ≤ 1) :
    a.Sorted (· ≤ ·) := by
  match a with
  | [] => exact List.sorted_nil
  | [x] => exact List.sorted_singleton x
  | x :: y :: rest => simp at h

theorem mergeSortE_sorted_fuel : ∀ (n : ℕ) (a : List β), a.length ≤ n →
    (mergeSortE a).2.Sorted (· ≤ ·) := by
  intro n
  induction n with
  | zero =>
    intro a ha
    rw [mergeSortE, if_pos (by omega)]
    exact sorted_of_length_le_one (a := a) (by omega)
  | succ n ih =>
    intro a ha
    by_cases h : a.length ≤ 1
    · rw [mergeSortE, if_pos h]
      exact sorted_of_length_le_one (a := a) h
    · rw [mergeSortE, if_neg h]
      dsimp only
      exact merge_sorted _ _ 0
        (ih (a.take (a.length / 2)) (by simp [List.length_take]; omega))
        (ih (a.drop (a.length / 2)) (by simp [List.length_drop]; omega))

theorem mergeSortE_sorted (a : List β) : (mergeSortE a).2.Sorted (· ≤ ·) :=
  mergeSortE_sorted_fuel a.length a (le_refl _)

end MergeSortSorted

section BubbleEngine

variable [LT α] [DecidableRel ((· < ·) : α → α → Prop)]

/-- One pass of `bubbleSort`'s inner `for` loop (source lines 134-140):
walk the array left to right comparing `array[i-1]` with `array[i]`,
swapping (and recording `{indices: [i-1, i], type: "swap"}`) whenever
`array[i-1] > array[i]`.  The parameter `k` is the absolute position of the
head of the remaining list, so the recorded indices match the source's.
After a swap at `(i-1, i)` the larger element is carried rightward, which
the recursion reflects by keeping `x` at the head of the tail it recurses
on.  Returns the recorded moves, the array after the pass, and the
`swapped` flag. -/
def bubblePass (k : ℕ) : List α → List (Move α) × List α × Bool
  | x :: y :: rest =>
    if y < x then
      let p := bubblePass (k + 1) (x :: rest)
      (Move.swap k (k + 1) :: p.1, y :: p.2.1, true)
    else
      let p := bubblePass (k + 1) (y :: rest)
      (p.1, x :: p.2.1, p.2.2)
  | l => ([], l, false)
termination_by l => l.length

/-- Number of inverted pairs (`i < j` with `a[i] > a[j]`); the termination
measure for `bubbleSort`'s outer `do ... while (swapped)` loop. -/
def inversions : List α → ℕ
  | [] => 0
  | x :: xs => xs.countP (fun y => decide (y < x)) + inversions xs

omit [Inhabited α] in
theorem bubblePass_nil (k : ℕ) :
    bubblePass (α := α) k [] = ([], [], false) := by
  rw [bubblePass]
  intro x y rest habs
  cases habs

omit [Inhabited α] in
theorem bubblePass_single (k : ℕ) (x : α) :
    bubblePass k [x] = ([], [x], false) := by
  rw [bubblePass]
  intro x' y rest habs
  simp at habs

end BubbleEngine

section BubbleLemmas

variable {β : Type} [LinearOrder β]

theorem bubblePass_perm (k : ℕ) (l : List β) : (bubblePass k l).2.1.Perm l := by
  induction k, l using bubblePass.induct with
  | case1 k x y rest hxy ih =>
    rw [bubblePass, if_pos hxy]
    exact (List.Perm.cons y ih).trans (List.Perm.swap x y rest)
  | case2 k x y rest hxy ih =>
    rw [bubblePass, if_neg hxy]
    exact List.Perm.cons x ih
  | case3 k l h =>
    rcases l with _ | ⟨x, _ | ⟨y, rest⟩⟩
    · rw [bubblePass_nil]
    · rw [bubblePass_single]
    · exact absurd rfl (h x y rest)

theorem bubblePass_length (k : ℕ) (l : List β) :
    (bubblePass k l).2.1.length = l.length :=
  (bubblePass_perm k l).length_eq

theorem bubblePass_not_swapped_eq (k : ℕ) (l : List β)
    (h : (bubblePass k l).2.2 = false) : (bubblePass k l).2.1 = l := by
  induction k, l using bubblePass.induct with
  | case1 k x y rest hxy ih =>
    rw [bubblePass, if_pos hxy] at h
    simp at h
  | case2 k x y rest hxy ih =>
    rw [bubblePass, if_neg hxy] at h ⊢
    dsimp only at h ⊢
    rw [ih h]
  | case3 k l hcatch =>
    rcases l with _ | ⟨x, _ | ⟨y, rest⟩⟩
    · rw [bubblePass_nil]
    · rw [bubblePass_single]
    · exact absurd rfl (hcatch x y rest)

theorem bubblePass_not_swapped_sorted (k : ℕ) (l : List β)
    (h : (bubblePass k l).2.2 = false) : l.Sorted (· ≤ ·) := by
  induction k, l using bubblePass.induct with
  | case1 k x y rest hxy ih =>
    rw [bubblePass, if_pos hxy] at h
    simp at h
  | case2 k x y rest hxy ih =>
    rw [bubblePass, if_neg hxy] at h
    dsimp only at h
    have hs := ih h
    rw [List.sorted_cons]
    refine ⟨?_, hs⟩
    intro b hb
    have hxy' : x ≤ y := le_of_not_lt hxy
    rcases List.mem_cons.mp hb with rfl | hb
    · exact hxy'
    · exact le_trans hxy' ((List.sorted_cons.mp hs).1 b hb)
  | case3 k l hcatch =>
    rcases l with _ | ⟨x, _ | ⟨y, rest⟩⟩
    · exact List.sorted_nil
    · exact List.sorted_singleton x
    · exact absurd rfl (hcatch x y rest)

theorem bubblePass_of_sorted (k : ℕ) (l : List β) (h : l.Sorted (· ≤ ·)) :
    bubblePass k l = ([], l, false) := by
  induction k, l using bubblePass.induct with
  | case1 k x y rest hxy ih =>
    have := (List.sorted_cons.mp h).1 y (by simp)
    exact absurd hxy (not_lt.mpr this)
  | case2 k x y rest hxy ih =>
    rw [bubblePass, if_neg hxy]
    rw [ih (List.sorted_cons.mp h).2]
  | case3 k l hcatch =>
    rcases l with _ | ⟨x, _ | ⟨y, rest⟩⟩
    · rw [bubblePass_nil]
    · rw [bubblePass_single]
    · exact absurd rfl (hcatch x y rest)

theorem bubblePass_inversions (k : ℕ) (l : List β) :
    inversions (bubblePass k l).2.1 + (bubblePass k l).1.length = inversions l := by
  induction k, l using bubblePass.induct with
  | case1 k x y rest hxy ih =>
    rw [bubblePass, if_pos hxy]
    dsimp only
    rw [inversions, inversions, inversions, List.length_cons]
    have hcount : (bubblePass (k + 1) (x :: rest)).2.1.countP (fun z => decide (z < y))
        = (x :: rest).countP (fun z => decide (z < y)) :=
      (bubblePass_perm (k + 1) (x :: rest)).countP_eq _
    rw [hcount, List.countP_cons]
    have hdx : decide (x < y) = false := decide_eq_false (lt_asymm hxy)
    simp only [hdx, Bool.false_eq_true, if_false, Nat.add_zero]
    have ih' := ih
    rw [inversions] at ih'
    have hcy : (y :: rest).countP (fun z => decide (z < x))
        = rest.countP (fun z => decide (z < x)) + 1 := by
      rw [List.countP_cons]
      simp [hxy]
    rw [hcy]
    omega
  | case2 k x y rest hxy ih =>
    rw [bubblePass, if_neg hxy]
    dsimp only
    rw [inversions, inversions]
    have hcount : (bubblePass (k + 1) (y :: rest)).2.1.countP (fun z => decide (z < x))
        = (y :: rest).countP (fun z => decide (z < x)) :=
      (bubblePass_perm (k + 1) (y :: rest)).countP_eq _
    rw [hcount]
    omega
  | case3 k l hcatch =>
    rcases l with _ | ⟨x, _ | ⟨y, rest⟩⟩
    · rw [bubblePass_nil]; rfl
    · rw [bubblePass_single]; rfl
    · exact absurd rfl (hcatch x y rest)

theorem bubblePass_swapped_pos (k : ℕ) (l : List β)
    (h : (bubblePass k l).2.2 = true) : 0 < (bubblePass k l).1.length := by
  induction k, l using bubblePass.induct with
  | case1 k x y rest hxy ih =>
    rw [bubblePass, if_pos hxy]
    simp
  | case2 k x y rest hxy ih =>
    rw [bubblePass, if_neg hxy] at h ⊢
    dsimp only at h ⊢
    exact ih h
  | case3 k l hcatch =>
    rcases l with _ | ⟨x, _ | ⟨y, rest⟩⟩
    · rw [bubblePass_nil] at h; simp at h
    · rw [bubblePass_single] at h; simp at h
    · exact absurd rfl (hcatch x y rest)

theorem bubblePass_inversions_lt (a : List β) (h : (bubblePass 0 a).2.2 = true) :
    inversions (bubblePass 0 a).2.1 < inversions a := by
  have h1 := bubblePass_inversions 0 a
  have h2 := bubblePass_swapped_pos 0 a h
  omega

theorem bubblePass_bounds (k : ℕ) (l : List β) :
    ∀ m ∈ (bubblePass k l).1, ∃ i, m = Move.swap i (i + 1) ∧ k ≤ i ∧ i + 1 < k + l.length := by
  induction k, l using bubblePass.induct with
  | case1 k x y rest hxy ih =>
    intro m hm
    rw [bubblePass, if_pos hxy] at hm
    dsimp only at hm
    rcases List.mem_cons.mp hm with rfl | hm
    · exact ⟨k, rfl, le_refl k, by simp⟩
    · obtain ⟨i, rfl, hki, hilt⟩ := ih m hm
      refine ⟨i, rfl, by omega, ?_⟩
      simp only [List.length_cons] at hilt ⊢
      omega
  | case2 k x y rest hxy ih =>
    intro m hm
    rw [bubblePass, if_neg hxy] at hm
    dsimp only at hm
    obtain ⟨i, rfl, hki, hilt⟩ := ih m hm
    refine ⟨i, rfl, by omega, ?_⟩
    simp only [List.length_cons] at hilt ⊢
    omega
  | case3 k l hcatch =>
    intro m hm
    rcases l with _ | ⟨x, _ | ⟨y, rest⟩⟩
    · rw [bubblePass_nil] at hm; simp at hm
    · rw [bubblePass_single] at hm; simp at hm
    · exact absurd rfl (hcatch x y rest)

/-- The outer `do ... while (swapped)` loop of `bubbleSort` (source lines
132-141): run one pass; while the pass reported a swap, run another pass on
the updated array, accumulating the recorded moves.  Termination: a
swapping pass strictly decreases `inversions`. -/
def bubbleLoop (a : List β) : List (Move β) × List β :=
  let p := bubblePass 0 a
  if h : p.2.2 = true then
    let q := bubbleLoop p.2.1
    (p.1 ++ q.1, q.2)
  else (p.1, p.2.1)
termination_by inversions a
decreasing_by exact bubblePass_inversions_lt a h

/-- The `bubbleSort` engine (source lines 129-143): the recorded moves
together with the engine's final private array. -/
def bubbleSort (a : List β) : List (Move β) × List β := bubbleLoop a

theorem bubbleLoop_eq (a : List β) : bubbleLoop a =
    if (bubblePass 0 a).2.2 = true then
      ((bubblePass 0 a).1 ++ (bubbleLoop (bubblePass 0 a).2.1).1,
       (bubbleLoop (bubblePass 0 a).2.1).2)
    else ((bubblePass 0 a).1, (bubblePass 0 a).2.1) := by
  rw [bubbleLoop]
  by_cases h : (bubblePass 0 a).2.2 = true
  · simp [h]
  · simp [h]

theorem bubbleLoop_perm (a : List β) : (bubbleLoop a).2.Perm a := by
  suffices hgen : ∀ (n : ℕ) (b : List β), inversions b ≤ n → (bubbleLoop b).2.Perm b from
    hgen (inversions a) a (le_refl _)
  intro n
  induction n with
  | zero =>
    intro b hb
    rw [bubbleLoop_eq]
    by_cases h : (bubblePass 0 b).2.2 = true
    · exact absurd (bubblePass_inversions_lt b h) (by omega)
    · rw [if_neg h]
      exact bubblePass_perm 0 b
  | succ n ih =>
    intro b hb
    rw [bubbleLoop_eq]
    by_cases h : (bubblePass 0 b).2.2 = true
    · rw [if_pos h]
      have hlt := bubblePass_inversions_lt b h
      exact (ih (bubblePass 0 b).2.1 (by omega)).trans (bubblePass_perm 0 b)
    · rw [if_neg h]
      exact bubblePass_perm 0 b

theorem bubbleLoop_sorted (a : List β) : (bubbleLoop a).2.Sorted (· ≤ ·) := by
  suffices hgen : ∀ (n : ℕ) (b : List β), inversions b ≤ n →
      (bubbleLoop b).2.Sorted (· ≤ ·) from hgen (inversions a) a (le_refl _)
  intro n
  induction n with
  | zero =>
    intro b hb
    rw [bubbleLoop_eq]
    by_cases h : (bubblePass 0 b).2.2 = true
    · exact absurd (bubblePass_inversions_lt b h) (by omega)
    · rw [if_neg h]
      have hfalse : (bubblePass 0 b).2.2 = false := by
        revert h
        cases (bubblePass 0 b).2.2 <;> simp
      rw [bubblePass_not_swapped_eq 0 b hfalse]
      exact bubblePass_not_swapped_sorted 0 b hfalse
  | succ n ih =>
    intro b hb
    rw [bubbleLoop_eq]
    by_cases h : (bubblePass 0 b).2.2 = true
    · rw [if_pos h]
      have hlt := bubblePass_inversions_lt b h
      exact ih (bubblePass 0 b).2.1 (by omega)
    · rw [if_neg h]
      have hfalse : (bubblePass 0 b).2.2 = false := by
        revert h
        cases (bubblePass 0 b).2.2 <;> simp
      rw [bubblePass_not_swapped_eq 0 b hfalse]
      exact bubblePass_not_swapped_sorted 0 b hfalse

theorem inversions_eq_zero_of_sorted (l : List β) (h : l.Sorted (· ≤ ·)) :
    inversions l = 0 := by
  induction l with
  | nil => rfl
  | cons x xs ih =>
    rw [inversions]
    rw [List.sorted_cons] at h
    have hc : xs.countP (fun y => decide (y < x)) = 0 := by
      rw [List.countP_eq_zero]
      intro b hb
      simp only [decide_eq_true_eq]
      exact not_lt.mpr (h.1 b hb)
    rw [hc, ih h.2]

theorem bubbleLoop_moves_length (a : List β) :
    (bubbleLoop a).1.length = inversions a := by
  suffices hgen : ∀ (n : ℕ) (b : List β), inversions b ≤ n →
      (bubbleLoop b).1.length = inversions b from hgen (inversions a) a (le_refl _)
  intro n
  induction n with
  | zero =>
    intro b hb
    rw [bubbleLoop_eq]
    by_cases h : (bubblePass 0 b).2.2 = true
    · exact absurd (bubblePass_inversions_lt b h) (by omega)
    · rw [if_neg h]
      dsimp only
      have := bubblePass_inversions 0 b
      omega
  | succ n ih =>
    intro b hb
    rw [bubbleLoop_eq]
    by_cases h : (bubblePass 0 b).2.2 = true
    · rw [if_pos h]
      have hlt := bubblePass_inversions_lt b h
      have hrec := ih (bubblePass 0 b).2.1 (by omega)
      have hpass := bubblePass_inversions 0 b
      simp only [List.length_append]
      omega
    · rw [if_neg h]
      dsimp only
      have hfalse : (bubblePass 0 b).2.2 = false := by
        revert h
        cases (bubblePass 0 b).2.2 <;> simp
      have heq := bubblePass_not_swapped_eq 0 b hfalse
      have hinv := bubblePass_inversions 0 b
      rw [heq] at hinv
      have hzero := inversions_eq_zero_of_sorted b
        (bubblePass_not_swapped_sorted 0 b hfalse)
      omega

theorem bubbleLoop_bounds (a : List β) :
    ∀ m ∈ (bubbleLoop a).1, MoveInBounds a.length m := by
  suffices hgen : ∀ (n : ℕ) (b : List β), inversions b ≤ n →
      ∀ m ∈ (bubbleLoop b).1, MoveInBounds b.length m from
    hgen (inversions a) a (le_refl _)
  intro n
  induction n with
  | zero =>
    intro b hb m hm
    rw [bubbleLoop_eq] at hm
    by_cases h : (bubblePass 0 b).2.2 = true
    · exact absurd (bubblePass_inversions_lt b h) (by omega)
    · rw [if_neg h] at hm
      obtain ⟨i, rfl, _, hilt⟩ := bubblePass_bounds 0 b m hm
      exact ⟨by omega, by omega⟩
  | succ n ih =>
    intro b hb m hm
    rw [bubbleLoop_eq] at hm
    by_cases h : (bubblePass 0 b).2.2 = true
    · rw [if_pos h] at hm
      rcases List.mem_append.mp hm with hm1 | hm2
      · obtain ⟨i, rfl, _, hilt⟩ := bubblePass_bounds 0 b m hm1
        exact ⟨by omega, by omega⟩
      · have hlt := bubblePass_inversions_lt b h
        have := ih (bubblePass 0 b).2.1 (by omega) m hm2
        rwa [bubblePass_length 0 b] at this
    · rw [if_neg h] at hm
      obtain ⟨i, rfl, _, hilt⟩ := bubblePass_bounds 0 b m hm
      exact ⟨by omega, by omega⟩

theorem inversions_le_choose (l : List β) :
    inversions l ≤ l.length.choose 2 := by
  induction l with
  | nil => simp [inversions]
  | cons x xs ih =>
    rw [inversions, List.length_cons]
    have h1 : xs.countP (fun y => decide (y < x)) ≤ xs.length :=
      List.countP_le_length _
    have h2 : (xs.length + 1).choose 2 = xs.length + xs.length.choose 2 := by
      have := Nat.choose_succ_succ xs.length 1
      simpa [Nat.choose_one_right] using this
    omega

end BubbleLemmas

section BubbleReplay

variable {β : Type} [Inhabited β] [LinearOrder β]

theorem bubblePass_replay : ∀ (k : ℕ) (l : List β), ∀ (pre : List β),
    pre.length = k →
    applyMoves (pre ++ l) (bubblePass k l).1 = pre ++ (bubblePass k l).2.1 := by
  intro k l
  induction k, l using bubblePass.induct with
  | case1 k x y rest hxy ih =>
    intro pre hpre
    rw [bubblePass, if_pos hxy]
    dsimp only
    rw [applyMoves_cons]
    have hmove : applyMove (pre ++ x :: y :: rest) (Move.swap k (k + 1))
        = (pre ++ [y]) ++ x :: rest := by
      show ((pre ++ x :: y :: rest).set k (getE (pre ++ x :: y :: rest) (k + 1))).set
        (k + 1) (getE (pre ++ x :: y :: rest) k) = (pre ++ [y]) ++ x :: rest
      have hg1 : getE (pre ++ x :: y :: rest) (k + 1) = y := by
        unfold getE
        rw [List.getD_append_right _ _ _ _ (by omega)]
        have : k + 1 - pre.length = 1 := by omega
        rw [this]
        rfl
      have hg0 : getE (pre ++ x :: y :: rest) k = x := by
        unfold getE
        rw [List.getD_append_right _ _ _ _ (by omega)]
        have : k - pre.length = 0 := by omega
        rw [this]
        rfl
      rw [hg1, hg0]
      rw [List.set_append, if_neg (by omega)]
      have h0 : k - pre.length = 0 := by omega
      rw [h0, List.set_cons_zero]
      rw [List.set_append, if_neg (by omega)]
      have h1 : k + 1 - pre.length = 1 := by omega
      rw [h1, List.set_cons_succ, List.set_cons_zero]
      simp
    rw [hmove, ih (pre ++ [y]) (by simp [hpre])]
    simp
  | case2 k x y rest hxy ih =>
    intro pre hpre
    rw [bubblePass, if_neg hxy]
    dsimp only
    have hsplit : pre ++ x :: y :: rest = (pre ++ [x]) ++ y :: rest := by simp
    rw [hsplit, ih (pre ++ [x]) (by simp [hpre])]
    simp
  | case3 k l hcatch =>
    intro pre hpre
    rcases l with _ | ⟨x, _ | ⟨y, rest⟩⟩
    · rw [bubblePass_nil]; rfl
    · rw [bubblePass_single]; rfl
    · exact absurd rfl (hcatch x y rest)

theorem bubbleLoop_replay (a : List β) :
    applyMoves a (bubbleLoop a).1 = (bubbleLoop a).2 := by
  suffices hgen : ∀ (n : ℕ) (b : List β), inversions b ≤ n →
      applyMoves b (bubbleLoop b).1 = (bubbleLoop b).2 from
    hgen (inversions a) a (le_refl _)
  intro n
  induction n with
  | zero =>
    intro b hb
    rw [bubbleLoop_eq]
    by_cases h : (bubblePass 0 b).2.2 = true
    · exact absurd (bubblePass_inversions_lt b h) (by omega)
    · rw [if_neg h]
      have := bubblePass_replay 0 b [] rfl
      simpa using this
  | succ n ih =>
    intro b hb
    rw [bubbleLoop_eq]
    by_cases h : (bubblePass 0 b).2.2 = true
    · rw [if_pos h]
      dsimp only
      rw [applyMoves_append]
      have hp : applyMoves b (bubblePass 0 b).1 = (bubblePass 0 b).2.1 := by
        have := bubblePass_replay 0 b [] rfl
        simpa using this
      rw [hp]
      have hlt := bubblePass_inversions_lt b h
      exact ih (bubblePass 0 b).2.1 (by omega)
    · rw [if_neg h]
      have := bubblePass_replay 0 b [] rfl
      simpa using this

end BubbleReplay

section ListHelpers

variable {β : Type} [Inhabited β]

theorem set_getE_self (a : List β) (i : ℕ) (h : i < a.length) :
    a.set i (getE a i) = a := by
  apply List.ext_getElem
  · simp
  · intro j hj hj'
    rw [List.getElem_set]
    by_cases hij : i = j
    · subst hij
      rw [if_pos rfl, getE_eq_getElem a i h]
    · rw [if_neg hij]

theorem take_set_of_le (a : List β) (m j : ℕ) (v : β) (h : j ≤ m) :
    (a.set m v).take j = a.take j := by
  apply List.ext_getElem
  · simp
  · intro i hi hi'
    rw [List.getElem_take, List.getElem_take, List.getElem_set_ne]
    intro heq
    subst heq
    simp at hi
    omega

theorem drop_set_self (a : List β) (m : ℕ) (v : β) (h : m < a.length) :
    (a.set m v).drop m = v :: a.drop (m + 1) := by
  rw [List.set_eq_take_append_cons_drop, if_pos h]
  exact List.drop_left' (by simp [List.length_take]; omega)

theorem getE_applyMove_swap (a : List β) (i m k : ℕ) (hi : i < a.length)
    (hm : m < a.length) :
    getE (applyMove a (Move.swap i m)) k =
      if k = i then getE a m else if k = m then getE a i else getE a k := by
  show getE ((a.set i (getE a m)).set m (getE a i)) k = _
  by_cases hkm : k = m
  · by_cases hki : k = i
    · subst hki
      rw [if_pos rfl]
      subst hkm
      rw [getE_set_self _ k _ (by simpa using hm)]
    · subst hkm
      rw [getE_set_self _ k _ (by simpa using hm), if_neg hki, if_pos rfl]
  · rw [getE_set_ne _ m k _ (Ne.symm hkm)]
    by_cases hki : k = i
    · subst hki
      rw [getE_set_self a k _ hi, if_pos rfl]
    · rw [getE_set_ne a i k _ (Ne.symm hki), if_neg hki, if_neg hkm]

end ListHelpers

section InsertionEngine

variable [LT α] [DecidableRel ((· < ·) : α → α → Prop)]

/-- The inner `while` loop of `insertionSort` plus the final unconditional
`Overwrite` (source lines 259-267).  `jp1` stands for `j + 1`, so the JS
condition `j >= 0 && array[j] > key` is `0 < jp1 && key < array[jp1 - 1]`;
each iteration pushes `{indices: [j+1, j], type: "swap"}` and performs the
shift `array[j+1] = array[j]`; on exit `{indices: [j+1], type: "overwrite",
value: key}` is pushed and `array[j+1] = key` performed. -/
def insertInner (a : List α) (key : α) : ℕ → List (Move α) × List α
  | 0 => ([Move.overwrite 0 key], a.set 0 key)
  | jp1 + 1 =>
    if key < getE a jp1 then
      let p := insertInner (a.set (jp1 + 1) (getE a jp1)) key jp1
      (Move.swap (jp1 + 1) jp1 :: p.1, p.2)
    else ([Move.overwrite (jp1 + 1) key], a.set (jp1 + 1) key)

/-- The outer `for` loop of `insertionSort` (source lines 258-268), indexed
by `i`; each iteration reads `key = array[i]` and runs the inner loop
starting at `j = i - 1` (so `jp1 = i`). -/
def insertOuter (a : List α) (i : ℕ) : List (Move α) × List α :=
  if h : i < a.length then
    let p := insertInner a (getE a i) i
    let q := insertOuter p.2 (i + 1)
    (p.1 ++ q.1, q.2)
  else ([], a)
termination_by a.length - i
decreasing_by
  have hlen : ∀ (jp1 : ℕ) (b : List α) (key : α),
      (insertInner b key jp1).2.length = b.length := by
    intro jp1
    induction jp1 with
    | zero => intro b key; simp [insertInner]
    | succ j ih =>
      intro b key
      rw [insertInner]
      by_cases hc : key < getE b j
      · rw [if_pos hc]
        dsimp only
        rw [ih]
        simp
      · rw [if_neg hc]
        simp
  simp only [hlen]
  omega

/-- The `insertionSort` engine (source lines 256-270): the outer loop
starts at `i = 1`. -/
def insertionSort (a : List α) : List (Move α) × List α := insertOuter a 1

theorem insertInner_length : ∀ (jp1 : ℕ) (b : List α) (key : α),
    (insertInner b key jp1).2.length = b.length := by
  intro jp1
  induction jp1 with
  | zero => intro b key; simp [insertInner]
  | succ j ih =>
    intro b key
    rw [insertInner]
    by_cases hc : key < getE b j
    · rw [if_pos hc]
      dsimp only
      rw [ih]
      simp
    · rw [if_neg hc]
      simp

theorem insertOuter_eq (a : List α) (i : ℕ) : insertOuter a i =
    if i < a.length then
      ((insertInner a (getE a i) i).1 ++
        (insertOuter (insertInner a (getE a i) i).2 (i + 1)).1,
       (insertOuter (insertInner a (getE a i) i).2 (i + 1)).2)
    else ([], a) := by
  rw [insertOuter]
  by_cases h : i < a.length
  · simp [h]
  · simp [h]

theorem insertInner_bounds : ∀ (jp1 : ℕ) (b : List α) (key : α), jp1 < b.length →
    ∀ m ∈ (insertInner b key jp1).1, MoveInBounds b.length m := by
  intro jp1
  induction jp1 with
  | zero =>
    intro b key hlt m hm
    rw [insertInner] at hm
    rcases List.mem_cons.mp hm with rfl | hm'
    · exact hlt
    · simp at hm'
  | succ j ih =>
    intro b key hlt m hm
    rw [insertInner] at hm
    by_cases hc : key < getE b j
    · rw [if_pos hc] at hm
      dsimp only at hm
      rcases List.mem_cons.mp hm with rfl | hm'
      · exact ⟨hlt, by omega⟩
      · have := ih (b.set (j + 1) (getE b j)) key (by simpa using Nat.lt_of_succ_lt hlt) m hm'
        simpa using this
    · rw [if_neg hc] at hm
      rcases List.mem_cons.mp hm with rfl | hm'
      · exact hlt
      · simp at hm'

theorem insertOuter_bounds : ∀ (n : ℕ) (a : List α) (i : ℕ), a.length - i ≤ n →
    ∀ m ∈ (insertOuter a i).1, MoveInBounds a.length m := by
  intro n
  induction n with
  | zero =>
    intro a i hn m hm
    rw [insertOuter_eq] at hm
    have hge : ¬ i < a.length := by omega
    rw [if_neg hge] at hm
    simp at hm
  | succ n ih =>
    intro a i hn m hm
    rw [insertOuter_eq] at hm
    by_cases h : i < a.length
    · rw [if_pos h] at hm
      rcases List.mem_append.mp hm with hm1 | hm2
      · exact insertInner_bounds i a (getE a i) h m hm1
      · have hl := insertInner_length i a (getE a i)
        have := ih (insertInner a (getE a i) i).2 (i + 1) (by omega) m hm2
        rwa [hl] at this
    · rw [if_neg h] at hm
      simp at hm

end InsertionEngine

section InsertionLemmas

variable {β : Type} [Inhabited β] [LinearOrder β]

/-- Where the inner loop deposits the key: before the first strictly larger
element of the sorted prefix (equal elements are kept to the left). -/
def specInsert (key : β) : List β → List β
  | [] => [key]
  | b :: l => if key < b then key :: b :: l else b :: specInsert key l

theorem specInsert_perm (key : β) : ∀ (l : List β),
    (specInsert key l).Perm (key :: l) := by
  intro l
  induction l with
  | nil => rfl
  | cons b l ih =>
    rw [specInsert]
    by_cases h : key < b
    · rw [if_pos h]
    · rw [if_neg h]
      exact (List.Perm.cons b ih).trans (List.Perm.swap key b l)

theorem specInsert_length (key : β) (l : List β) :
    (specInsert key l).length = l.length + 1 := by
  have := (specInsert_perm key l).length_eq
  simpa using this

theorem specInsert_sorted (key : β) : ∀ (l : List β), l.Sorted (· ≤ ·) →
    (specInsert key l).Sorted (· ≤ ·) := by
  intro l
  induction l with
  | nil => intro _; simp [specInsert]
  | cons b l ih =>
    intro hs
    have hs' := List.sorted_cons.mp hs
    rw [specInsert]
    by_cases h : key < b
    · rw [if_pos h, List.sorted_cons]
      refine ⟨?_, hs⟩
      intro c hc
      rcases List.mem_cons.mp hc with rfl | hc
      · exact le_of_lt h
      · exact le_trans (le_of_lt h) (hs'.1 c hc)
    · rw [if_neg h, List.sorted_cons]
      refine ⟨?_, ih hs'.2⟩
      intro c hc
      have hc' : c ∈ key :: l := (specInsert_perm key l).mem_iff.mp hc
      rcases List.mem_cons.mp hc' with rfl | hc'
      · exact le_of_not_lt h
      · exact hs'.1 c hc'

theorem specInsert_append_gt (key b : β) (h : key < b) : ∀ (l : List β),
    specInsert key (l ++ [b]) = specInsert key l ++ [b] := by
  intro l
  induction l with
  | nil => simp [specInsert, h]
  | cons c l ih =>
    show specInsert key (c :: (l ++ [b])) = _
    rw [specInsert, specInsert]
    by_cases hc : key < c
    · rw [if_pos hc, if_pos hc]
      simp
    · rw [if_neg hc, if_neg hc, ih]
      simp

theorem specInsert_all_le (key : β) : ∀ (l : List β), (∀ x ∈ l, x ≤ key) →
    specInsert key l = l ++ [key] := by
  intro l
  induction l with
  | nil => intro _; rfl
  | cons b l ih =>
    intro hall
    rw [specInsert, if_neg (not_lt.mpr (hall b (by simp)))]
    rw [ih (fun x hx => hall x (by simp [hx]))]
    simp

theorem insertInner_spec : ∀ (jp1 : ℕ) (a : List β) (key : β),
    jp1 < a.length → (a.take jp1).Sorted (· ≤ ·) →
    (insertInner a key jp1).2 = specInsert key (a.take jp1) ++ a.drop (jp1 + 1) := by
  intro jp1
  induction jp1 with
  | zero =>
    intro a key hlt _
    rw [insertInner]
    dsimp only
    rw [List.set_eq_take_append_cons_drop, if_pos hlt]
    simp [specInsert]
  | succ j ih =>
    intro a key hlt hsorted
    have hj : j < a.length := Nat.lt_of_succ_lt hlt
    have htake : a.take (j + 1) = a.take j ++ [a[j]] := by
      rw [List.take_succ, List.getElem?_eq_getElem hj]
      rfl
    rw [insertInner]
    by_cases hc : key < getE a j
    · rw [if_pos hc]
      dsimp only
      set a' := a.set (j + 1) (getE a j) with ha'
      have ha'len : a'.length = a.length := by simp [ha']
      have htk : a'.take j = a.take j := take_set_of_le a (j + 1) j _ (by omega)
      have hsorted' : (a'.take j).Sorted (· ≤ ·) := by
        rw [htk]
        refine List.Pairwise.sublist ?_ hsorted
        rw [htake]
        exact (List.take j a).sublist_append_left _
      have hrec := ih a' key (by omega) hsorted'
      rw [hrec, htk]
      have hdrop : a'.drop (j + 1) = getE a j :: a.drop (j + 2) :=
        drop_set_self a (j + 1) (getE a j) hlt
      rw [hdrop, htake]
      rw [specInsert_append_gt key a[j] (by rwa [getE_eq_getElem a j hj] at hc)]
      simp [getE_eq_getElem a j hj]
    · rw [if_neg hc]
      dsimp only
      have hle : getE a j ≤ key := le_of_not_lt hc
      have hall : ∀ x ∈ a.take (j + 1), x ≤ key := by
        intro x hx
        obtain ⟨m, hm, rfl⟩ := List.getElem_of_mem hx
        have hmlen : m < j + 1 := by
          have := hm
          simp [List.length_take] at this
          omega
        rw [List.getElem_take]
        have hpair := List.pairwise_iff_getElem.mp hsorted
        have hamj : a[m] ≤ a[j] := by
          rcases Nat.lt_or_ge m j with hmj | hmj
          · have hjlen : j < (a.take (j + 1)).length := by
              simp [List.length_take]
              omega
            have := hpair m j (by simp [List.length_take]; omega) hjlen hmj
            rw [List.getElem_take, List.getElem_take] at this
            exact this
          · have hmj' : m = j := by omega
            subst hmj'
            exact le_refl _
        calc a[m] ≤ a[j] := hamj
          _ ≤ key := by rwa [getE_eq_getElem a j hj] at hle
      rw [specInsert_all_le key _ hall]
      rw [List.set_eq_take_append_cons_drop, if_pos hlt]
      simp

theorem insertInner_replay : ∀ (jp1 : ℕ) (a : List β) (key : β), jp1 < a.length →
    applyMoves (a.set jp1 key) (insertInner a key jp1).1 = (insertInner a key jp1).2 := by
  intro jp1
  induction jp1 with
  | zero =>
    intro a key hlt
    rw [insertInner]
    show applyMove (a.set 0 key) (Move.overwrite 0 key) = a.set 0 key
    show (a.set 0 key).set 0 key = a.set 0 key
    rw [List.set_set]
  | succ j ih =>
    intro a key hlt
    rw [insertInner]
    by_cases hc : key < getE a j
    · rw [if_pos hc]
      dsimp only
      rw [applyMoves_cons]
      have hmove : applyMove (a.set (j + 1) key) (Move.swap (j + 1) j)
          = (a.set (j + 1) (getE a j)).set j key := by
        show ((a.set (j + 1) key).set (j + 1) (getE (a.set (j + 1) key) j)).set j
          (getE (a.set (j + 1) key) (j + 1)) = _
        rw [getE_set_ne a (j + 1) j key (by omega)]
        rw [getE_set_self a (j + 1) key hlt]
        rw [List.set_set]
      rw [hmove]
      exact ih (a.set (j + 1) (getE a j)) key (by simpa using Nat.lt_of_succ_lt hlt)
    · rw [if_neg hc]
      show applyMove (a.set (j + 1) key) (Move.overwrite (j + 1) key) = _
      show (a.set (j + 1) key).set (j + 1) key = a.set (j + 1) key
      rw [List.set_set]

theorem insertOuter_spec : ∀ (n : ℕ) (a : List β) (i : ℕ), a.length - i ≤ n →
    (a.take i).Sorted (· ≤ ·) →
    (insertOuter a i).2.Sorted (· ≤ ·) ∧ (insertOuter a i).2.Perm a := by
  intro n
  induction n with
  | zero =>
    intro a i hn hsorted
    rw [insertOuter_eq]
    have hge : ¬ i < a.length := by omega
    rw [if_neg hge]
    refine ⟨?_, List.Perm.refl a⟩
    rwa [List.take_of_length_le (by omega)] at hsorted
  | succ n ih =>
    intro a i hn hsorted
    rw [insertOuter_eq]
    by_cases h : i < a.length
    · rw [if_pos h]
      dsimp only
      set key := getE a i with hkey
      set p := insertInner a key i with hp
      have hspec : p.2 = specInsert key (a.take i) ++ a.drop (i + 1) :=
        insertInner_spec i a key h hsorted
      have hplen : p.2.length = a.length := insertInner_length i a key
      have hpfront : p.2.take (i + 1) = specInsert key (a.take i) := by
        rw [hspec]
        refine List.take_left' ?_
        rw [specInsert_length]
        simp [List.length_take]
        omega
      have hpsorted : (p.2.take (i + 1)).Sorted (· ≤ ·) := by
        rw [hpfront]
        exact specInsert_sorted key _ hsorted
      have hpperm : p.2.Perm a := by
        rw [hspec]
        have h1 : (specInsert key (a.take i)).Perm (key :: a.take i) :=
          specInsert_perm key (a.take i)
        refine (h1.append_right (a.drop (i + 1))).trans ?_
        have hdecomp : a.take i ++ a[i] :: a.drop (i + 1) = a := by
          conv_rhs => rw [← List.take_append_drop i a]
          rw [List.drop_eq_getElem_cons h]
        have hkey' : key = a[i] := getE_eq_getElem a i h
        rw [hkey']
        refine List.Perm.trans List.perm_middle.symm ?_
        rw [hdecomp]
      have hrec := ih p.2 (i + 1) (by omega) hpsorted
      exact ⟨hrec.1, hrec.2.trans hpperm⟩
    · rw [if_neg h]
      refine ⟨?_, List.Perm.refl a⟩
      rwa [List.take_of_length_le (by omega)] at hsorted

theorem insertOuter_replay : ∀ (n : ℕ) (a : List β) (i : ℕ), a.length - i ≤ n →
    applyMoves a (insertOuter a i).1 = (insertOuter a i).2 := by
  intro n
  induction n with
  | zero =>
    intro a i hn
    rw [insertOuter_eq]
    have hge : ¬ i < a.length := by omega
    rw [if_neg hge]
    rfl
  | succ n ih =>
    intro a i hn
    rw [insertOuter_eq]
    by_cases h : i < a.length
    · rw [if_pos h]
      dsimp only
      rw [applyMoves_append]
      have hself : a.set i (getE a i) = a := set_getE_self a i h
      have hinner : applyMoves a (insertInner a (getE a i) i).1
          = (insertInner a (getE a i) i).2 := by
        have h2 := insertInner_replay i a (getE a i) h
        rwa [hself] at h2
      rw [hinner]
      exact ih (insertInner a (getE a i) i).2 (i + 1)
        (by rw [insertInner_length]; omega)
    · rw [if_neg h]
      rfl

theorem insertionSort_sorted (a : List β) : (insertionSort a).2.Sorted (· ≤ ·) := by
  have := insertOuter_spec (a.length - 1) a 1 (by omega) ?_
  · exact this.1
  · match a with
    | [] => simp
    | x :: rest => simp

theorem insertionSort_perm (a : List β) : (insertionSort a).2.Perm a := by
  have := insertOuter_spec (a.length - 1) a 1 (by omega) ?_
  · exact this.2
  · match a with
    | [] => simp
    | x :: rest => simp

theorem insertionSort_replay (a : List β) :
    applyMoves a (insertionSort a).1 = (insertionSort a).2 :=
  insertOuter_replay (a.length - 1) a 1 (by omega)

theorem insertionSort_bounds (a : List β) :
    ∀ m ∈ (insertionSort a).1, MoveInBounds a.length m :=
  insertOuter_bounds (a.length - 1) a 1 (by omega)

theorem insertInner_counts : ∀ (jp1 : ℕ) (b : List β) (key : β),
    (insertInner b key jp1).1.countP Move.isSwap ≤ jp1 ∧
    (insertInner b key jp1).1.countP Move.isOverwrite = 1 := by
  intro jp1
  induction jp1 with
  | zero =>
    intro b key
    rw [insertInner]
    simp [List.countP_cons, Move.isSwap, Move.isOverwrite]
  | succ j ih =>
    intro b key
    rw [insertInner]
    by_cases hc : key < getE b j
    · rw [if_pos hc]
      dsimp only
      rw [List.countP_cons, List.countP_cons]
      have hrec := ih (b.set (j + 1) (getE b j)) key
      have hs : (Move.isSwap (Move.swap (j + 1) j : Move β)) = true := rfl
      have ho : (Move.isOverwrite (Move.swap (j + 1) j : Move β)) = false := rfl
      rw [hs, ho]
      simp only [eq_self_iff_true, if_true, Bool.false_eq_true, if_false]
      omega
    · rw [if_neg hc]
      simp [List.countP_cons, Move.isSwap, Move.isOverwrite]

theorem insertOuter_counts : ∀ (n : ℕ) (a : List β) (i : ℕ), a.length - i ≤ n →
    i ≤ a.length →
    (insertOuter a i).1.countP Move.isSwap + i.choose 2 ≤ a.length.choose 2 ∧
    (insertOuter a i).1.countP Move.isOverwrite ≤ a.length - i := by
  intro n
  induction n with
  | zero =>
    intro a i hn hi
    rw [insertOuter_eq]
    have hge : ¬ i < a.length := by omega
    rw [if_neg hge]
    have : i = a.length := by omega
    subst this
    simp
  | succ n ih =>
    intro a i hn hi
    rw [insertOuter_eq]
    by_cases h : i < a.length
    · rw [if_pos h]
      dsimp only
      rw [List.countP_append, List.countP_append]
      have hil := insertInner_length i a (getE a i)
      have hinner := insertInner_counts i a (getE a i)
      have houter := ih (insertInner a (getE a i) i).2 (i + 1)
        (by omega) (by omega)
      rw [hil] at houter
      have hchoose : (i + 1).choose 2 = i + i.choose 2 := by
        have := Nat.choose_succ_succ i 1
        simpa [Nat.choose_one_right] using this
      constructor
      · omega
      · omega
    · rw [if_neg h]
      have : i = a.length := by omega
      subst this
      simp

theorem insertionSort_counts (a : List β) :
    (insertionSort a).1.countP Move.isSwap ≤ a.length.choose 2 ∧
    (insertionSort a).1.countP Move.isOverwrite ≤ a.length := by
  rw [insertionSort]
  by_cases h : 1 ≤ a.length
  · have := insertOuter_counts (a.length - 1) a 1 (by omega) h
    have hchoose1 : Nat.choose 1 2 = 0 := rfl
    constructor
    · omega
    · omega
  · have hlen : a.length = 0 := by omega
    rw [insertOuter_eq, if_neg (by omega)]
    simp

end InsertionLemmas

section SelectionEngine

variable [LT α] [DecidableRel ((· < ·) : α → α → Prop)]

/-- The inner scan of `selectionSort` (source lines 275-280): walk `j` from
`i + 1` to the end, lowering `minIndex` whenever `array[j] < array[minIndex]`. -/
def findMin (a : List α) (minIdx j : ℕ) : ℕ :=
  if h : j < a.length then
    if getE a j < getE a minIdx then findMin a j (j + 1) else findMin a minIdx (j + 1)
  else minIdx
termination_by a.length - j

variable [Inhabited α]

/-- The outer loop of `selectionSort` (source lines 274-285): for each `i`
(while `i < array.length - 1`, here written `i + 1 < length`), find the
minimum of the unsorted remainder and, only when `minIndex !== i`, push
`{indices: [i, minIndex], type: "swap"}` and perform the swap. -/
def selOuter (a : List α) (i : ℕ) : List (Move α) × List α :=
  if h : i + 1 < a.length then
    let m := findMin a i (i + 1)
    if m ≠ i then
      let q := selOuter (applyMove a (Move.swap i m)) (i + 1)
      (Move.swap i m :: q.1, q.2)
    else selOuter a (i + 1)
  else ([], a)
termination_by a.length - i
decreasing_by
  · rw [length_applyMove]
    omega
  · omega

/-- The `selectionSort` engine (source lines 272-287). -/
def selectionSort (a : List α) : List (Move α) × List α := selOuter a 0

theorem selOuter_eq (a : List α) (i : ℕ) : selOuter a i =
    if i + 1 < a.length then
      if findMin a i (i + 1) ≠ i then
        (Move.swap i (findMin a i (i + 1)) ::
          (selOuter (applyMove a (Move.swap i (findMin a i (i + 1)))) (i + 1)).1,
         (selOuter (applyMove a (Move.swap i (findMin a i (i + 1)))) (i + 1)).2)
      else selOuter a (i + 1)
    else ([], a) := by
  rw [selOuter]
  by_cases h : i + 1 < a.length
  · rw [dif_pos h, if_pos h]
  · rw [dif_neg h, if_neg h]

theorem findMin_lt_length : ∀ (n : ℕ) (a : List α) (minIdx j : ℕ),
    a.length - j ≤ n → minIdx < a.length → findMin a minIdx j < a.length := by
  intro n
  induction n with
  | zero =>
    intro a minIdx j hn hm
    rw [findMin, dif_neg (by omega)]
    exact hm
  | succ n ih =>
    intro a minIdx j hn hm
    rw [findMin]
    by_cases h : j < a.length
    · rw [dif_pos h]
      by_cases hc : getE a j < getE a minIdx
      · rw [if_pos hc]
        exact ih a j (j + 1) (by omega) h
      · rw [if_neg hc]
        exact ih a minIdx (j + 1) (by omega) hm
    · rw [dif_neg h]
      exact hm

theorem selOuter_bounds : ∀ (n : ℕ) (a : List α) (i : ℕ), a.length - i ≤ n →
    ∀ m ∈ (selOuter a i).1, MoveInBounds a.length m := by
  intro n
  induction n with
  | zero =>
    intro a i hn m hm
    rw [selOuter_eq, if_neg (by omega)] at hm
    simp at hm
  | succ n ih =>
    intro a i hn m hm
    rw [selOuter_eq] at hm
    by_cases h : i + 1 < a.length
    · rw [if_pos h] at hm
      by_cases hmi : findMin a i (i + 1) ≠ i
      · rw [if_pos hmi] at hm
        rcases List.mem_cons.mp hm with rfl | hm'
        · exact ⟨by omega, findMin_lt_length (a.length - (i + 1)) a i (i + 1)
            (by omega) (by omega)⟩
        · have := ih (applyMove a (Move.swap i (findMin a i (i + 1)))) (i + 1)
            (by rw [length_applyMove]; omega) m hm'
          rwa [length_applyMove] at this
      · rw [if_neg hmi] at hm
        exact ih a (i + 1) (by omega) m hm
    · rw [if_neg h] at hm
      simp at hm

theorem selOuter_replay : ∀ (n : ℕ) (a : List α) (i : ℕ), a.length - i ≤ n →
    applyMoves a (selOuter a i).1 = (selOuter a i).2 := by
  intro n
  induction n with
  | zero =>
    intro a i hn
    rw [selOuter_eq, if_neg (by omega)]
    rfl
  | succ n ih =>
    intro a i hn
    rw [selOuter_eq]
    by_cases h : i + 1 < a.length
    · rw [if_pos h]
      by_cases hmi : findMin a i (i + 1) ≠ i
      · rw [if_pos hmi]
        dsimp only
        rw [applyMoves_cons]
        exact ih (applyMove a (Move.swap i (findMin a i (i + 1)))) (i + 1)
          (by rw [length_applyMove]; omega)
      · rw [if_neg hmi]
        exact ih a (i + 1) (by omega)
    · rw [if_neg h]
      rfl

theorem selOuter_moves_le : ∀ (n : ℕ) (a : List α) (i : ℕ), a.length - i ≤ n →
    (selOuter a i).1.length ≤ a.length - (i + 1) := by
  intro n
  induction n with
  | zero =>
    intro a i hn
    rw [selOuter_eq, if_neg (by omega)]
    simp
  | succ n ih =>
    intro a i hn
    rw [selOuter_eq]
    by_cases h : i + 1 < a.length
    · rw [if_pos h]
      by_cases hmi : findMin a i (i + 1) ≠ i
      · rw [if_pos hmi]
        dsimp only
        rw [List.length_cons]
        have := ih (applyMove a (Move.swap i (findMin a i (i + 1)))) (i + 1)
          (by rw [length_applyMove]; omega)
        rw [length_applyMove] at this
        omega
      · rw [if_neg hmi]
        have := ih a (i + 1) (by omega)
        omega
    · rw [if_neg h]
      simp

end SelectionEngine

section SelectionSorted

variable {β : Type} [Inhabited β] [LinearOrder β]

theorem findMin_spec : ∀ (n : ℕ) (a : List β) (minIdx j : ℕ),
    a.length - j ≤ n → minIdx < a.length →
    (getE a (findMin a minIdx j) ≤ getE a minIdx ∧
      (findMin a minIdx j = minIdx ∨ j ≤ findMin a minIdx j)) ∧
    ∀ k, j ≤ k → k < a.length → getE a (findMin a minIdx j) ≤ getE a k := by
  intro n
  induction n with
  | zero =>
    intro a minIdx j hn hm
    rw [findMin, dif_neg (by omega)]
    exact ⟨⟨le_refl _, Or.inl rfl⟩, fun k hk hk' => absurd hk' (by omega)⟩
  | succ n ih =>
    intro a minIdx j hn hm
    rw [findMin]
    by_cases h : j < a.length
    · rw [dif_pos h]
      by_cases hc : getE a j < getE a minIdx
      · rw [if_pos hc]
        obtain ⟨⟨hle, hpos⟩, hall⟩ := ih a j (j + 1) (by omega) h
        refine ⟨⟨le_trans hle (le_of_lt hc), ?_⟩, ?_⟩
        · rcases hpos with heq | hge
          · exact Or.inr (by omega)
          · exact Or.inr (by omega)
        · intro k hk hk'
          rcases Nat.eq_or_lt_of_le hk with rfl | hk2
          · exact hle
          · exact hall k (by omega) hk'
      · rw [if_neg hc]
        obtain ⟨⟨hle, hpos⟩, hall⟩ := ih a minIdx (j + 1) (by omega) hm
        refine ⟨⟨hle, ?_⟩, ?_⟩
        · rcases hpos with heq | hge
          · exact Or.inl heq
          · exact Or.inr (by omega)
        · intro k hk hk'
          rcases Nat.eq_or_lt_of_le hk with rfl | hk2
          · exact le_trans hle (le_of_not_lt hc)
          · exact hall k (by omega) hk'
    · rw [dif_neg h]
      exact ⟨⟨le_refl _, Or.inl rfl⟩, fun k hk hk' => absurd hk' (by omega)⟩

theorem sorted_of_pointwise (a : List β)
    (h : ∀ p q, p ≤ q → q < a.length → getE a p ≤ getE a q) :
    a.Sorted (· ≤ ·) := by
  rw [List.Sorted, List.pairwise_iff_getElem]
  intro p q hp hq hpq
  have := h p q (le_of_lt hpq) hq
  rwa [getE_eq_getElem a p hp, getE_eq_getElem a q hq] at this

theorem selOuter_spec : ∀ (n : ℕ) (a : List β) (i : ℕ), a.length - i ≤ n →
    (∀ p q, p ≤ q → q < i → q < a.length → getE a p ≤ getE a q) →
    (∀ p q, p < i → i ≤ q → q < a.length → getE a p ≤ getE a q) →
    (selOuter a i).2.Sorted (· ≤ ·) ∧ (selOuter a i).2.Perm a := by
  intro n
  induction n with
  | zero =>
    intro a i hn h1 h2
    rw [selOuter_eq, if_neg (by omega)]
    refine ⟨sorted_of_pointwise a ?_, List.Perm.refl a⟩
    intro p q hpq hq
    rcases Nat.lt_or_ge q i with hqi | hqi
    · exact h1 p q hpq hqi hq
    · rcases Nat.eq_or_lt_of_le hpq with rfl | hplt
      · exact le_refl _
      · exact h2 p q (by omega) hqi hq
  | succ n ih =>
    intro a i hn h1 h2
    rw [selOuter_eq]
    by_cases h : i + 1 < a.length
    · rw [if_pos h]
      have hi : i < a.length := by omega
      obtain ⟨⟨hmin_le, hmin_pos⟩, hmin_all⟩ :=
        findMin_spec (a.length - (i + 1)) a i (i + 1) (by omega) hi
      set m := findMin a i (i + 1) with hmdef
      have hmlt : m < a.length :=
        findMin_lt_length (a.length - (i + 1)) a i (i + 1) (by omega) hi
      by_cases hmi : m ≠ i
      · rw [if_pos hmi]
        dsimp only
        have him : i < m := by
          rcases hmin_pos with heq | hge
          · exact absurd heq hmi
          · omega
        set a' := applyMove a (Move.swap i m) with ha'
        have hlen' : a'.length = a.length := length_applyMove a _
        have hget : ∀ k, getE a' k =
            if k = i then getE a m else if k = m then getE a i else getE a k :=
          fun k => getE_applyMove_swap a i m k hi hmlt
        have h1' : ∀ p q, p ≤ q → q < i + 1 → q < a'.length → getE a' p ≤ getE a' q := by
          intro p q hpq hq hq'
          rcases Nat.lt_or_ge q i with hqi | hqi
          · rw [hget p, hget q]
            rw [if_neg (by omega), if_neg (by omega), if_neg (by omega),
              if_neg (by omega)]
            exact h1 p q hpq hqi (by omega)
          · have hq_eq : q = i := by omega
            subst hq_eq
            rcases Nat.eq_or_lt_of_le hpq with rfl | hplt
            · exact le_refl _
            · rw [hget p, hget q]
              rw [if_neg (by omega), if_neg (by omega), if_pos rfl]
              exact h2 p m hplt (by omega) hmlt
        have h2' : ∀ p q, p < i + 1 → i + 1 ≤ q → q < a'.length → getE a' p ≤ getE a' q := by
          intro p q hp hq hq'
          rw [hlen'] at hq'
          rcases Nat.lt_or_ge p i with hpi | hpi
          · rw [hget p, if_neg (by omega), if_neg (by omega), hget q]
            by_cases hqm : q = m
            · rw [if_neg (by omega), if_pos hqm]
              exact h2 p i hpi (le_refl i) hi
            · rw [if_neg (by omega), if_neg hqm]
              exact h2 p q hpi (by omega) hq'
          · have hp_eq : p = i := by omega
            subst hp_eq
            rw [hget p, if_pos rfl, hget q]
            by_cases hqm : q = m
            · rw [if_neg (by omega), if_pos hqm]
              exact hmin_le
            · rw [if_neg (by omega), if_neg hqm]
              exact hmin_all q hq hq'
        obtain ⟨hsorted, hperm⟩ := ih a' (i + 1) (by omega) h1' h2'
        exact ⟨hsorted, hperm.trans (perm_applyMove_of_swap a i m hi hmlt)⟩
      · rw [if_neg hmi]
        have hm_eq : m = i := by omega
        have h1' : ∀ p q, p ≤ q → q < i + 1 → q < a.length → getE a p ≤ getE a q := by
          intro p q hpq hq hq'
          rcases Nat.lt_or_ge q i with hqi | hqi
          · exact h1 p q hpq hqi hq'
          · have hq_eq : q = i := by omega
            subst hq_eq
            rcases Nat.eq_or_lt_of_le hpq with rfl | hplt
            · exact le_refl _
            · exact h2 p q hplt (le_refl _) hq'
        have h2' : ∀ p q, p < i + 1 → i + 1 ≤ q → q < a.length → getE a p ≤ getE a q := by
          intro p q hp hq hq'
          rcases Nat.lt_or_ge p i with hpi | hpi
          · exact h2 p q hpi (by omega) hq'
          · have hp_eq : p = i := by omega
            subst hp_eq
            have := hmin_all q hq hq'
            rwa [hm_eq] at this
        exact ih a (i + 1) (by omega) h1' h2'
    · rw [if_neg h]
      refine ⟨sorted_of_pointwise a ?_, List.Perm.refl a⟩
      intro p q hpq hq
      rcases Nat.lt_or_ge q i with hqi | hqi
      · exact h1 p q hpq hqi hq
      · rcases Nat.eq_or_lt_of_le hpq with rfl | hplt
        · exact le_refl _
        · exact h2 p q (by omega) hqi hq

theorem selectionSort_sorted (a : List β) : (selectionSort a).2.Sorted (· ≤ ·) :=
  (selOuter_spec a.length a 0 (by omega)
    (fun p q _ hq _ => absurd hq (by omega))
    (fun p q hp _ _ => absurd hp (by omega))).1

theorem selectionSort_perm (a : List β) : (selectionSort a).2.Perm a :=
  (selOuter_spec a.length a 0 (by omega)
    (fun p q _ hq _ => absurd hq (by omega))
    (fun p q hp _ _ => absurd hp (by omega))).2

theorem selectionSort_replay (a : List β) :
    applyMoves a (selectionSort a).1 = (selectionSort a).2 :=
  selOuter_replay a.length a 0 (by omega)

theorem selectionSort_bounds (a : List β) :
    ∀ m ∈ (selectionSort a).1, MoveInBounds a.length m :=
  selOuter_bounds a.length a 0 (by omega)

theorem selectionSort_count (a : List β) :
    (selectionSort a).1.length ≤ a.length.choose 2 := by
  rw [selectionSort]
  have h1 := selOuter_moves_le a.length a 0 (by omega)
  have h2 : a.length - 1 ≤ a.length.choose 2 := by
    match a with
    | [] => simp
    | x :: rest =>
      have : (rest.length + 1).choose 2 = rest.length + rest.length.choose 2 := by
        have := Nat.choose_succ_succ rest.length 1
        simpa [Nat.choose_one_right] using this
      simp only [List.length_cons]
      omega
  omega

end SelectionSorted

section QuickEngine

variable [Inhabited α] [LT α] [DecidableRel ((· < ·) : α → α → Prop)]

/-- The `for (j = low; j < high; j++)` loop of `partition` (source lines
244-250).  `ip1` stands for `i + 1` (the JS `i` starts at `low - 1`, which
can be `-1`; `ip1` starts at `low`).  When `array[j] < pivot` the JS does
`i++` then pushes `{indices: [i, j], type: "swap"}` and swaps, i.e. it
swaps positions `ip1` and `j` and then increments `ip1`. -/
def partLoop (a : List α) (pivot : α) (ip1 j high : ℕ) : List (Move α) × List α × ℕ :=
  if h : j < high then
    if getE a j < pivot then
      let p := partLoop (applyMove a (Move.swap ip1 j)) pivot (ip1 + 1) (j + 1) high
      (Move.swap ip1 j :: p.1, p.2)
    else partLoop a pivot ip1 (j + 1) high
  else ([], a, ip1)
termination_by high - j

/-- Lomuto `partition` (source lines 241-254): pivot is `array[high]`; after
the loop, push `{indices: [i+1, high], type: "swap"}`, swap, and return the
pivot's final index `i + 1`. -/
def partition (a : List α) (low high : ℕ) : List (Move α) × List α × ℕ :=
  let p := partLoop a (getE a high) low low high
  (p.1 ++ [Move.swap p.2.2 high], applyMove p.2.1 (Move.swap p.2.2 high), p.2.2)

theorem partLoop_eq (a : List α) (pivot : α) (ip1 j high : ℕ) :
    partLoop a pivot ip1 j high =
    if j < high then
      if getE a j < pivot then
        (Move.swap ip1 j ::
          (partLoop (applyMove a (Move.swap ip1 j)) pivot (ip1 + 1) (j + 1) high).1,
         (partLoop (applyMove a (Move.swap ip1 j)) pivot (ip1 + 1) (j + 1) high).2)
      else partLoop a pivot ip1 (j + 1) high
    else ([], a, ip1) := by
  rw [partLoop]
  by_cases h : j < high
  · rw [dif_pos h, if_pos h]
  · rw [dif_neg h, if_neg h]

theorem partLoop_idx : ∀ (n : ℕ) (a : List α) (pivot : α) (ip1 j high : ℕ),
    high - j ≤ n → ip1 ≤ j → j ≤ high →
    ip1 ≤ (partLoop a pivot ip1 j high).2.2 ∧
    (partLoop a pivot ip1 j high).2.2 ≤ high := by
  intro n
  induction n with
  | zero =>
    intro a pivot ip1 j high hn hij hjh
    rw [partLoop_eq, if_neg (by omega)]
    dsimp only
    exact ⟨le_refl _, by omega⟩
  | succ n ih =>
    intro a pivot ip1 j high hn hij hjh
    rw [partLoop_eq]
    by_cases h : j < high
    · rw [if_pos h]
      by_cases hc : getE a j < pivot
      · rw [if_pos hc]
        dsimp only
        have := ih (applyMove a (Move.swap ip1 j)) pivot (ip1 + 1) (j + 1) high
          (by omega) (by omega) (by omega)
        exact ⟨by omega, this.2⟩
      · rw [if_neg hc]
        have := ih a pivot ip1 (j + 1) high (by omega) (by omega) (by omega)
        exact ⟨this.1, this.2⟩
    · rw [if_neg h]
      dsimp only
      exact ⟨le_refl _, by omega⟩

theorem partition_idx (a : List α) (low high : ℕ) (h : low ≤ high) :
    low ≤ (partition a low high).2.2 ∧ (partition a low high).2.2 ≤ high := by
  rw [partition]
  exact partLoop_idx (high - low) a (getE a high) low low high (by omega)
    (le_refl _) h

/-- The recursion of `quickSort` (source lines 233-239): partition, then
recurse on `[low, pivotIndex - 1]` and `[pivotIndex + 1, high]`. -/
def quickSortHelper (a : List α) (low high : ℕ) : List (Move α) × List α :=
  if hlh : low < high then
    let p := partition a low high
    let q1 := quickSortHelper p.2.1 low (p.2.2 - 1)
    let q2 := quickSortHelper q1.2 (p.2.2 + 1) high
    (p.1 ++ q1.1 ++ q2.1, q2.2)
  else ([], a)
termination_by high - low
decreasing_by
  · have := partition_idx a low high (le_of_lt hlh)
    omega
  · have := partition_idx a low high (le_of_lt hlh)
    omega

/-- The `quickSort` engine (source lines 227-231): sort the whole range
`[0, length - 1]`. -/
def quickSort (a : List α) : List (Move α) × List α :=
  quickSortHelper a 0 (a.length - 1)

theorem quickSortHelper_eq (a : List α) (low high : ℕ) :
    quickSortHelper a low high =
    if low < high then
      ((partition a low high).1 ++
        (quickSortHelper (partition a low high).2.1 low
          ((partition a low high).2.2 - 1)).1 ++
        (quickSortHelper
          (quickSortHelper (partition a low high).2.1 low
            ((partition a low high).2.2 - 1)).2
          ((partition a low high).2.2 + 1) high).1,
       (quickSortHelper
          (quickSortHelper (partition a low high).2.1 low
            ((partition a low high).2.2 - 1)).2
          ((partition a low high).2.2 + 1) high).2)
    else ([], a) := by
  rw [quickSortHelper]
  by_cases h : low < high
  · rw [dif_pos h, if_pos h]
  · rw [dif_neg h, if_neg h]

end QuickEngine

section QuickLoopLemmas

variable [Inhabited α] [LT α] [DecidableRel ((· < ·) : α → α → Prop)]

theorem partLoop_perm : ∀ (n : ℕ) (a : List α) (pivot : α) (ip1 j high : ℕ),
    high - j ≤ n → ip1 ≤ j → j ≤ high → high ≤ a.length →
    (partLoop a pivot ip1 j high).2.1.Perm a := by
  intro n
  induction n with
  | zero =>
    intro a pivot ip1 j high hn hij hjh hha
    rw [partLoop_eq, if_neg (by omega)]
  | succ n ih =>
    intro a pivot ip1 j high hn hij hjh hha
    rw [partLoop_eq]
    by_cases h : j < high
    · rw [if_pos h]
      by_cases hc : getE a j < pivot
      · rw [if_pos hc]
        dsimp only
        have hperm := perm_applyMove_of_swap a ip1 j (by omega) (by omega)
        have := ih (applyMove a (Move.swap ip1 j)) pivot (ip1 + 1) (j + 1) high
          (by omega) (by omega) (by omega) (by rw [length_applyMove]; omega)
        exact this.trans hperm
      · rw [if_neg hc]
        exact ih a pivot ip1 (j + 1) high (by omega) (by omega) (by omega) hha
    · rw [if_neg h]

theorem partLoop_length (n : ℕ) (a : List α) (pivot : α) (ip1 j high : ℕ)
    (hn : high - j ≤ n) (hij : ip1 ≤ j) (hjh : j ≤ high) (hha : high ≤ a.length) :
    (partLoop a pivot ip1 j high).2.1.length = a.length :=
  (partLoop_perm n a pivot ip1 j high hn hij hjh hha).length_eq

theorem partLoop_untouched : ∀ (n : ℕ) (a : List α) (pivot : α) (ip1 j high : ℕ),
    high - j ≤ n → ip1 ≤ j → j ≤ high → high ≤ a.length →
    ∀ k, (k < ip1 ∨ high ≤ k) →
      getE (partLoop a pivot ip1 j high).2.1 k = getE a k := by
  intro n
  induction n with
  | zero =>
    intro a pivot ip1 j high hn hij hjh hha k hk
    rw [partLoop_eq, if_neg (by omega)]
  | succ n ih =>
    intro a pivot ip1 j high hn hij hjh hha k hk
    rw [partLoop_eq]
    by_cases h : j < high
    · rw [if_pos h]
      by_cases hc : getE a j < pivot
      · rw [if_pos hc]
        dsimp only
        have hstep := ih (applyMove a (Move.swap ip1 j)) pivot (ip1 + 1) (j + 1) high
          (by omega) (by omega) (by omega) (by rw [length_applyMove]; omega) k
          (by omega)
        rw [hstep]
        rw [getE_applyMove_swap a ip1 j k (by omega) (by omega)]
        rw [if_neg (by omega), if_neg (by omega)]
      · rw [if_neg hc]
        exact ih a pivot ip1 (j + 1) high (by omega) (by omega) (by omega) hha k hk
    · rw [if_neg h]

theorem partLoop_regionA : ∀ (n : ℕ) (a : List α) (pivot : α) (ip1 j high k0 : ℕ),
    high - j ≤ n → ip1 ≤ j → j ≤ high → high ≤ a.length →
    (∀ k, k0 ≤ k → k < ip1 → getE a k < pivot) →
    ∀ k, k0 ≤ k → k < (partLoop a pivot ip1 j high).2.2 →
      getE (partLoop a pivot ip1 j high).2.1 k < pivot := by
  intro n
  induction n with
  | zero =>
    intro a pivot ip1 j high k0 hn hij hjh hha hA k hk0 hk
    rw [partLoop_eq, if_neg (by omega)] at hk ⊢
    exact hA k hk0 hk
  | succ n ih =>
    intro a pivot ip1 j high k0 hn hij hjh hha hA k hk0 hk
    rw [partLoop_eq]
    by_cases h : j < high
    · rw [if_pos h]
      rw [partLoop_eq, if_pos h] at hk
      by_cases hc : getE a j < pivot
      · rw [if_pos hc]
        rw [if_pos hc] at hk
        dsimp only at hk ⊢
        refine ih (applyMove a (Move.swap ip1 j)) pivot (ip1 + 1) (j + 1) high k0
          (by omega) (by omega) (by omega) (by rw [length_applyMove]; omega)
          ?_ k hk0 hk
        intro k' hk0' hk'
        rw [getE_applyMove_swap a ip1 j k' (by omega) (by omega)]
        by_cases hkip : k' = ip1
        · rw [if_pos hkip]
          exact hc
        · rw [if_neg hkip, if_neg (by omega)]
          exact hA k' hk0' (by omega)
      · rw [if_neg hc]
        rw [if_neg hc] at hk
        exact ih a pivot ip1 (j + 1) high k0 (by omega) (by omega) (by omega)
          hha hA k hk0 hk
    · rw [if_neg h]
      rw [partLoop_eq, if_neg h] at hk
      exact hA k hk0 hk

theorem partLoop_regionB : ∀ (n : ℕ) (a : List α) (pivot : α) (ip1 j high : ℕ),
    high - j ≤ n → ip1 ≤ j → j ≤ high → high ≤ a.length →
    (∀ k, ip1 ≤ k → k < j → ¬ getE a k < pivot) →
    ∀ k, (partLoop a pivot ip1 j high).2.2 ≤ k → k < high →
      ¬ getE (partLoop a pivot ip1 j high).2.1 k < pivot := by
  intro n
  induction n with
  | zero =>
    intro a pivot ip1 j high hn hij hjh hha hB k hk hkh
    rw [partLoop_eq, if_neg (by omega)] at hk ⊢
    exact hB k hk (by omega)
  | succ n ih =>
    intro a pivot ip1 j high hn hij hjh hha hB k hk hkh
    rw [partLoop_eq]
    by_cases h : j < high
    · rw [if_pos h]
      rw [partLoop_eq, if_pos h] at hk
      by_cases hc : getE a j < pivot
      · rw [if_pos hc]
        rw [if_pos hc] at hk
        dsimp only at hk ⊢
        refine ih (applyMove a (Move.swap ip1 j)) pivot (ip1 + 1) (j + 1) high
          (by omega) (by omega) (by omega) (by rw [length_applyMove]; omega)
          ?_ k hk hkh
        intro k' hk1 hk2
        rw [getE_applyMove_swap a ip1 j k' (by omega) (by omega)]
        rw [if_neg (by omega)]
        by_cases hkj : k' = j
        · rw [if_pos hkj]
          exact hB ip1 (le_refl _) (by omega)
        · rw [if_neg hkj]
          exact hB k' (by omega) (by omega)
      · rw [if_neg hc]
        rw [if_neg hc] at hk
        refine ih a pivot ip1 (j + 1) high (by omega) (by omega) (by omega) hha
          ?_ k hk hkh
        intro k' hk1 hk2
        by_cases hkj : k' = j
        · subst hkj
          exact hc
        · exact hB k' hk1 (by omega)
    · rw [if_neg h]
      rw [partLoop_eq, if_neg h] at hk
      exact hB k hk (by omega)

theorem partLoop_replay : ∀ (n : ℕ) (a : List α) (pivot : α) (ip1 j high : ℕ),
    high - j ≤ n →
    applyMoves a (partLoop a pivot ip1 j high).1 = (partLoop a pivot ip1 j high).2.1 := by
  intro n
  induction n with
  | zero =>
    intro a pivot ip1 j high hn
    rw [partLoop_eq, if_neg (by omega)]
    rfl
  | succ n ih =>
    intro a pivot ip1 j high hn
    rw [partLoop_eq]
    by_cases h : j < high
    · rw [if_pos h]
      by_cases hc : getE a j < pivot
      · rw [if_pos hc]
        dsimp only
        rw [applyMoves_cons]
        exact ih (applyMove a (Move.swap ip1 j)) pivot (ip1 + 1) (j + 1) high
          (by omega)
      · rw [if_neg hc]
        exact ih a pivot ip1 (j + 1) high (by omega)
    · rw [if_neg h]
      rfl

theorem partLoop_bounds : ∀ (n : ℕ) (a : List α) (pivot : α) (ip1 j high : ℕ),
    high - j ≤ n → ip1 ≤ j →
    ∀ m ∈ (partLoop a pivot ip1 j high).1,
      ∃ u v, m = Move.swap u v ∧ u < high ∧ v < high := by
  intro n
  induction n with
  | zero =>
    intro a pivot ip1 j high hn hij m hm
    rw [partLoop_eq, if_neg (by omega)] at hm
    simp at hm
  | succ n ih =>
    intro a pivot ip1 j high hn hij m hm
    rw [partLoop_eq] at hm
    by_cases h : j < high
    · rw [if_pos h] at hm
      by_cases hc : getE a j < pivot
      · rw [if_pos hc] at hm
        dsimp only at hm
        rcases List.mem_cons.mp hm with rfl | hm'
        · exact ⟨ip1, j, rfl, by omega, h⟩
        · exact ih (applyMove a (Move.swap ip1 j)) pivot (ip1 + 1) (j + 1) high
            (by omega) (by omega) m hm'
      · rw [if_neg hc] at hm
        exact ih a pivot ip1 (j + 1) high (by omega) (by omega) m hm
    · rw [if_neg h] at hm
      simp at hm

end QuickLoopLemmas

section PartitionLemmas

variable [Inhabited α] [LT α] [DecidableRel ((· < ·) : α → α → Prop)]

theorem partition_perm (a : List α) (low high : ℕ) (hlh : low ≤ high)
    (hha : high < a.length) : (partition a low high).2.1.Perm a := by
  rw [partition]
  dsimp only
  have hidx := partLoop_idx (high - low) a (getE a high) low low high (by omega)
    (le_refl _) hlh
  have hlen := partLoop_length (high - low) a (getE a high) low low high (by omega)
    (le_refl _) hlh (by omega)
  refine (perm_applyMove_of_swap _ _ _ ?_ ?_).trans
    (partLoop_perm (high - low) a (getE a high) low low high (by omega)
      (le_refl _) hlh (by omega))
  · rw [hlen]
    omega
  · rw [hlen]
    omega

theorem partition_length (a : List α) (low high : ℕ) (hlh : low ≤ high)
    (hha : high < a.length) : (partition a low high).2.1.length = a.length :=
  (partition_perm a low high hlh hha).length_eq

theorem partition_pivot (a : List α) (low high : ℕ) (hlh : low ≤ high)
    (hha : high < a.length) :
    getE (partition a low high).2.1 (partition a low high).2.2 = getE a high := by
  rw [partition]
  dsimp only
  have hidx := partLoop_idx (high - low) a (getE a high) low low high (by omega)
    (le_refl _) hlh
  have hlen := partLoop_length (high - low) a (getE a high) low low high (by omega)
    (le_refl _) hlh (by omega)
  rw [getE_applyMove_swap _ _ _ _ (by omega) (by omega), if_pos rfl]
  exact partLoop_untouched (high - low) a (getE a high) low low high (by omega)
    (le_refl _) hlh (by omega) high (Or.inr (le_refl _))

theorem partition_regionA (a : List α) (low high : ℕ) (hlh : low ≤ high)
    (hha : high < a.length) :
    ∀ k, low ≤ k → k < (partition a low high).2.2 →
      getE (partition a low high).2.1 k < getE a high := by
  intro k hk1 hk2
  rw [partition] at hk2 ⊢
  dsimp only at hk2 ⊢
  have hidx := partLoop_idx (high - low) a (getE a high) low low high (by omega)
    (le_refl _) hlh
  have hlen := partLoop_length (high - low) a (getE a high) low low high (by omega)
    (le_refl _) hlh (by omega)
  rw [getE_applyMove_swap _ _ _ _ (by omega) (by omega)]
  rw [if_neg (by omega), if_neg (by omega)]
  exact partLoop_regionA (high - low) a (getE a high) low low high low (by omega)
    (le_refl _) hlh (by omega) (fun k' h1 h2 => absurd (lt_of_le_of_lt h1 h2)
      (lt_irrefl low)) k hk1 hk2

theorem partition_regionB (a : List α) (low high : ℕ) (hlh : low ≤ high)
    (hha : high < a.length) :
    ∀ k, (partition a low high).2.2 < k → k ≤ high →
      ¬ getE (partition a low high).2.1 k < getE a high := by
  intro k hk1 hk2
  rw [partition] at hk1 ⊢
  dsimp only at hk1 ⊢
  have hidx := partLoop_idx (high - low) a (getE a high) low low high (by omega)
    (le_refl _) hlh
  have hlen := partLoop_length (high - low) a (getE a high) low low high (by omega)
    (le_refl _) hlh (by omega)
  have hB := partLoop_regionB (high - low) a (getE a high) low low high (by omega)
    (le_refl _) hlh (by omega) (fun k' h1 h2 => absurd (lt_of_le_of_lt h1 h2)
      (lt_irrefl low))
  rw [getE_applyMove_swap _ _ _ _ (by omega) (by omega)]
  rw [if_neg (by omega)]
  by_cases hkh : k = high
  · rw [if_pos hkh]
    exact hB (partLoop a (getE a high) low low high).2.2 (le_refl _) (by omega)
  · rw [if_neg hkh]
    exact hB k (by omega) (by omega)

theorem partition_untouched (a : List α) (low high : ℕ) (hlh : low ≤ high)
    (hha : high < a.length) :
    ∀ k, (k < low ∨ high < k) → getE (partition a low high).2.1 k = getE a k := by
  intro k hk
  rw [partition]
  dsimp only
  have hidx := partLoop_idx (high - low) a (getE a high) low low high (by omega)
    (le_refl _) hlh
  have hlen := partLoop_length (high - low) a (getE a high) low low high (by omega)
    (le_refl _) hlh (by omega)
  rw [getE_applyMove_swap _ _ _ _ (by omega) (by omega)]
  rw [if_neg (by omega), if_neg (by omega)]
  exact partLoop_untouched (high - low) a (getE a high) low low high (by omega)
    (le_refl _) hlh (by omega) k (by omega)

theorem partition_replay (a : List α) (low high : ℕ) :
    applyMoves a (partition a low high).1 = (partition a low high).2.1 := by
  rw [partition]
  dsimp only
  rw [applyMoves_append]
  rw [partLoop_replay (high - low) a (getE a high) low low high (by omega)]
  rfl

theorem partition_bounds (a : List α) (low high : ℕ) (hlh : low ≤ high)
    (hha : high < a.length) :
    ∀ m ∈ (partition a low high).1, MoveInBounds a.length m := by
  intro m hm
  rw [partition] at hm
  dsimp only at hm
  have hidx := partLoop_idx (high - low) a (getE a high) low low high (by omega)
    (le_refl _) hlh
  rcases List.mem_append.mp hm with hm1 | hm2
  · obtain ⟨u, v, rfl, hu, hv⟩ := partLoop_bounds (high - low) a (getE a high)
      low low high (by omega) (le_refl _) m hm1
    exact ⟨by omega, by omega⟩
  · have : m = Move.swap (partLoop a (getE a high) low low high).2.2 high := by
      simpa using hm2
    subst this
    exact ⟨by omega, by omega⟩

end PartitionLemmas

section QuickHelperBasic

variable [Inhabited α] [LT α] [DecidableRel ((· < ·) : α → α → Prop)]

theorem quickHelper_length : ∀ (n : ℕ) (a : List α) (low high : ℕ),
    high - low ≤ n → (low < high → high < a.length) →
    (quickSortHelper a low high).2.length = a.length := by
  intro n
  induction n with
  | zero =>
    intro a low high hn hha
    rw [quickSortHelper_eq, if_neg (by omega)]
  | succ n ih =>
    intro a low high hn hha
    rw [quickSortHelper_eq]
    by_cases h : low < high
    · rw [if_pos h]
      have hha' := hha h
      have hidx := partition_idx a low high (le_of_lt h)
      have hplen := partition_length a low high (le_of_lt h) hha'
      have hq1 := ih (partition a low high).2.1 low ((partition a low high).2.2 - 1)
        (by omega) (by omega)
      have hq2 := ih (quickSortHelper (partition a low high).2.1 low
          ((partition a low high).2.2 - 1)).2 ((partition a low high).2.2 + 1) high
        (by omega) (by rw [hq1]; omega)
      rw [hq2, hq1, hplen]
    · rw [if_neg h]

theorem quickHelper_replay : ∀ (n : ℕ) (a : List α) (low high : ℕ),
    high - low ≤ n →
    applyMoves a (quickSortHelper a low high).1 = (quickSortHelper a low high).2 := by
  intro n
  induction n with
  | zero =>
    intro a low high hn
    rw [quickSortHelper_eq, if_neg (by omega)]
    rfl
  | succ n ih =>
    intro a low high hn
    rw [quickSortHelper_eq]
    by_cases h : low < high
    · rw [if_pos h]
      have hidx := partition_idx a low high (le_of_lt h)
      dsimp only
      rw [applyMoves_append, applyMoves_append]
      rw [partition_replay a low high]
      rw [ih (partition a low high).2.1 low ((partition a low high).2.2 - 1)
        (by omega)]
      exact ih _ ((partition a low high).2.2 + 1) high (by omega)
    · rw [if_neg h]
      rfl

theorem quickHelper_bounds : ∀ (n : ℕ) (a : List α) (low high : ℕ),
    high - low ≤ n → (low < high → high < a.length) →
    ∀ m ∈ (quickSortHelper a low high).1, MoveInBounds a.length m := by
  intro n
  induction n with
  | zero =>
    intro a low high hn hha m hm
    rw [quickSortHelper_eq, if_neg (by omega)] at hm
    simp at hm
  | succ n ih =>
    intro a low high hn hha m hm
    rw [quickSortHelper_eq] at hm
    by_cases h : low < high
    · rw [if_pos h] at hm
      have hha' := hha h
      have hidx := partition_idx a low high (le_of_lt h)
      have hplen := partition_length a low high (le_of_lt h) hha'
      have hq1len := quickHelper_length n (partition a low high).2.1 low
        ((partition a low high).2.2 - 1) (by omega) (by omega)
      dsimp only at hm
      rcases List.mem_append.mp hm with hm' | hm2
      · rcases List.mem_append.mp hm' with hm0 | hm1
        · exact partition_bounds a low high (le_of_lt h) hha' m hm0
        · have := ih (partition a low high).2.1 low ((partition a low high).2.2 - 1)
            (by omega) (by omega) m hm1
          rwa [hplen] at this
      · have := ih (quickSortHelper (partition a low high).2.1 low
            ((partition a low high).2.2 - 1)).2 ((partition a low high).2.2 + 1) high
            (by omega) (by rw [hq1len, hplen]; omega) m hm2
        rwa [hq1len, hplen] at this
    · rw [if_neg h] at hm
      simp at hm

end QuickHelperBasic

section Slice

variable {β : Type} [Inhabited β]

/-- The contiguous segment of positions `[lo, hi]` of an array. -/
def slice (a : List β) (lo hi : ℕ) : List β := (a.drop lo).take (hi + 1 - lo)

theorem slice_decomp (a : List β) (lo hi : ℕ) (h : lo ≤ hi + 1) :
    a = a.take lo ++ slice a lo hi ++ a.drop (hi + 1) := by
  rw [slice]
  conv_lhs => rw [← List.take_append_drop lo a]
  rw [List.append_assoc]
  congr 1
  conv_lhs => rw [← List.take_append_drop (hi + 1 - lo) (a.drop lo)]
  congr 1
  rw [List.drop_drop]
  congr 1
  omega

theorem mem_slice_iff (a : List β) (lo hi : ℕ) (x : β) :
    x ∈ slice a lo hi ↔
      ∃ k, lo ≤ k ∧ k ≤ hi ∧ k < a.length ∧ getE a k = x := by
  constructor
  · intro hx
    obtain ⟨m, hm, hval⟩ := List.getElem_of_mem hx
    have hm' := hm
    simp only [slice, List.length_take, List.length_drop] at hm'
    have hm1 : m < hi + 1 - lo := lt_of_lt_of_le hm' (min_le_left _ _)
    have hm2 : m < a.length - lo := lt_of_lt_of_le hm' (min_le_right _ _)
    refine ⟨lo + m, by omega, by omega, by omega, ?_⟩
    rw [← hval]
    show getE a (lo + m) = (slice a lo hi)[m]
    simp only [slice] at hm ⊢
    rw [List.getElem_take, List.getElem_drop]
    exact getE_eq_getElem a (lo + m) (by omega)
  · intro ⟨k, hk1, hk2, hk3, hval⟩
    have hm : k - lo < (slice a lo hi).length := by
      simp only [slice, List.length_take, List.length_drop]
      omega
    have : (slice a lo hi)[k - lo] = x := by
      simp only [slice] at hm ⊢
      rw [List.getElem_take, List.getElem_drop, ← hval]
      rw [getE_eq_getElem a k hk3]
      congr 1
      omega
    rw [← this]
    exact List.getElem_mem hm

theorem take_eq_of_pointwise (a b : List β) (lo : ℕ) (hlen : a.length = b.length)
    (h : ∀ k, k < lo → k < a.length → getE a k = getE b k) :
    a.take lo = b.take lo := by
  apply List.ext_getElem
  · simp [hlen]
  · intro k hk hk'
    rw [List.getElem_take, List.getElem_take]
    have hka : k < a.length := by simp at hk; omega
    have := h k (by simp at hk; omega) hka
    rwa [getE_eq_getElem a k hka, getE_eq_getElem b k (by omega)] at this

theorem drop_eq_of_pointwise (a b : List β) (n : ℕ) (hlen : a.length = b.length)
    (h : ∀ k, n ≤ k → k < a.length → getE a k = getE b k) :
    a.drop n = b.drop n := by
  apply List.ext_getElem
  · simp [hlen]
  · intro k hk hk'
    rw [List.getElem_drop, List.getElem_drop]
    have hka : n + k < a.length := by simp at hk; omega
    have := h (n + k) (by omega) hka
    rwa [getE_eq_getElem a _ hka, getE_eq_getElem b _ (by omega)] at this

theorem slice_eq_of_pointwise (a b : List β) (lo hi : ℕ) (hlen : a.length = b.length)
    (h : ∀ k, lo ≤ k → k ≤ hi → k < a.length → getE a k = getE b k) :
    slice a lo hi = slice b lo hi := by
  apply List.ext_getElem
  · simp [slice, hlen]
  · intro m hm hm'
    have hma : m < (slice a lo hi).length := hm
    simp only [slice, List.length_take, List.length_drop] at hma
    simp only [slice]
    rw [List.getElem_take, List.getElem_drop,
      List.getElem_take, List.getElem_drop]
    have hlt : lo + m < a.length := by omega
    have := h (lo + m) (by omega) (by omega) hlt
    rwa [getE_eq_getElem a _ hlt, getE_eq_getElem b _ (by omega)] at this

theorem slice_perm_of_perm [DecidableEq β] (a b : List β) (lo hi : ℕ)
    (hperm : a.Perm b) (hlohi : lo ≤ hi + 1)
    (hlo : ∀ k, k < lo → getE a k = getE b k)
    (hhi : ∀ k, hi < k → k < a.length → getE a k = getE b k) :
    (slice a lo hi).Perm (slice b lo hi) := by
  have hlen := hperm.length_eq
  have htake : a.take lo = b.take lo :=
    take_eq_of_pointwise a b lo hlen (fun k hk _ => hlo k hk)
  have hdrop : a.drop (hi + 1) = b.drop (hi + 1) :=
    drop_eq_of_pointwise a b (hi + 1) hlen (fun k hk hk' => hhi k (by omega) hk')
  rw [List.perm_iff_count]
  intro x
  have hda := slice_decomp a lo hi hlohi
  have hdb := slice_decomp b lo hi hlohi
  have hca : a.count x = (a.take lo).count x + (slice a lo hi).count x
      + (a.drop (hi + 1)).count x := by
    conv_lhs => rw [hda]
    rw [List.count_append, List.count_append]
  have hcb : b.count x = (b.take lo).count x + (slice b lo hi).count x
      + (b.drop (hi + 1)).count x := by
    conv_lhs => rw [hdb]
    rw [List.count_append, List.count_append]
  have hcount := hperm.count_eq x
  rw [htake, hdrop] at hca
  omega

end Slice

section QuickSorted

variable {β : Type} [Inhabited β] [LinearOrder β]

theorem quickHelper_spec : ∀ (n : ℕ) (a : List β) (low high : ℕ),
    high - low ≤ n → (low < high → high < a.length) →
    (quickSortHelper a low high).2.Perm a ∧
    (∀ k, (k < low ∨ high < k) →
      getE (quickSortHelper a low high).2 k = getE a k) ∧
    (∀ p q, low ≤ p → p ≤ q → q ≤ high → q < a.length →
      getE (quickSortHelper a low high).2 p ≤ getE (quickSortHelper a low high).2 q) := by
  intro n
  induction n with
  | zero =>
    intro a low high hn hhyp
    rw [quickSortHelper_eq, if_neg (by omega)]
    refine ⟨List.Perm.refl a, fun k _ => rfl, ?_⟩
    intro p q hp hpq hq hql
    have : p = q := by omega
    subst this
    exact le_refl _
  | succ n ih =>
    intro a low high hn hhyp
    by_cases h : low < high
    swap
    · rw [quickSortHelper_eq, if_neg h]
      refine ⟨List.Perm.refl a, fun k _ => rfl, ?_⟩
      intro p q hp hpq hq hql
      have : p = q := by omega
      subst this
      exact le_refl _
    have hha : high < a.length := hhyp h
    have hidx := partition_idx a low high (le_of_lt h)
    have hperm1 := partition_perm a low high (le_of_lt h) hha
    have hlen1 := partition_length a low high (le_of_lt h) hha
    have hpivot := partition_pivot a low high (le_of_lt h) hha
    have hA := partition_regionA a low high (le_of_lt h) hha
    have hB := partition_regionB a low high (le_of_lt h) hha
    have hunt1 := partition_untouched a low high (le_of_lt h) hha
    -- abbreviations
    set pv := getE a high with hpv
    set a1 := (partition a low high).2.1 with ha1
    set pidx := (partition a low high).2.2 with hpidx
    -- left recursive call
    have ih1 := ih a1 low (pidx - 1) (by omega) (fun _ => by rw [hlen1]; omega)
    set a2 := (quickSortHelper a1 low (pidx - 1)).2 with ha2
    have hlen2 : a2.length = a1.length := (ih1.1).length_eq
    have huntL : ∀ k, pidx ≤ k → getE a2 k = getE a1 k := by
      intro k hk
      by_cases hp0 : pidx = 0
      · have hlow0 : low = 0 := by omega
        rw [ha2, hp0, hlow0]
        rw [quickSortHelper_eq, if_neg (by omega)]
      · exact ih1.2.1 k (Or.inr (by omega))
    -- right recursive call
    have ih2 := ih a2 (pidx + 1) high (by omega)
      (fun _ => by rw [hlen2, hlen1]; omega)
    set a3 := (quickSortHelper a2 (pidx + 1) high).2 with ha3
    have hlen3 : a3.length = a2.length := (ih2.1).length_eq
    have huntR : ∀ k, k ≤ pidx → getE a3 k = getE a2 k := by
      intro k hk
      exact ih2.2.1 k (Or.inl (by omega))
    -- pivot value is fixed through both recursions
    have hpv3 : getE a3 pidx = pv := by
      rw [huntR pidx (le_refl _), huntL pidx (le_refl _), hpivot]
    -- left-region values stay below the pivot
    have hleft : ∀ k, low ≤ k → k < pidx → getE a3 k < pv := by
      intro k hk1 hk2
      have hp1 : 1 ≤ pidx := by omega
      rw [huntR k (by omega)]
      have hmem : getE a2 k ∈ slice a2 low (pidx - 1) := by
        rw [mem_slice_iff]
        exact ⟨k, hk1, by omega, by rw [hlen2, hlen1]; omega, rfl⟩
      have hsliceperm : (slice a2 low (pidx - 1)).Perm (slice a1 low (pidx - 1)) := by
        refine slice_perm_of_perm a2 a1 low (pidx - 1) ih1.1 (by omega) ?_ ?_
        · intro k' hk'
          exact ih1.2.1 k' (Or.inl hk')
        · intro k' hk1' hk2'
          exact ih1.2.1 k' (Or.inr hk1')
      have hmem1 : getE a2 k ∈ slice a1 low (pidx - 1) := hsliceperm.mem_iff.mp hmem
      obtain ⟨k', hk1', hk2', hk3', hval'⟩ := (mem_slice_iff _ _ _ _).mp hmem1
      rw [← hval']
      exact hA k' hk1' (by omega)
    -- right-region values are at least the pivot
    have hright : ∀ k, pidx < k → k ≤ high → pv ≤ getE a3 k := by
      intro k hk1 hk2
      have hmem : getE a3 k ∈ slice a3 (pidx + 1) high := by
        rw [mem_slice_iff]
        exact ⟨k, by omega, hk2, by rw [hlen3, hlen2, hlen1]; omega, rfl⟩
      have hsliceperm : (slice a3 (pidx + 1) high).Perm (slice a2 (pidx + 1) high) := by
        refine slice_perm_of_perm a3 a2 (pidx + 1) high ih2.1 (by omega) ?_ ?_
        · intro k' hk'
          exact ih2.2.1 k' (Or.inl hk')
        · intro k' hk1' hk2'
          exact ih2.2.1 k' (Or.inr hk1')
      have heq12 : slice a2 (pidx + 1) high = slice a1 (pidx + 1) high := by
        refine slice_eq_of_pointwise a2 a1 (pidx + 1) high (by rw [hlen2]) ?_
        intro k' hk1' hk2' hk3'
        exact huntL k' (by omega)
      have hmem1 : getE a3 k ∈ slice a1 (pidx + 1) high := by
        rw [← heq12]
        exact hsliceperm.mem_iff.mp hmem
      obtain ⟨k', hk1', hk2', hk3', hval'⟩ := (mem_slice_iff _ _ _ _).mp hmem1
      rw [← hval']
      exact le_of_not_lt (hB k' (by omega) hk2')
    -- assemble
    rw [quickSortHelper_eq, if_pos h]
    dsimp only
    rw [← ha1, ← hpidx, ← ha2, ← ha3]
    refine ⟨?_, ?_, ?_⟩
    · exact (ih2.1.trans ih1.1).trans hperm1
    · intro k hk
      rw [ha3]
      have h3 : getE (quickSortHelper a2 (pidx + 1) high).2 k = getE a2 k := by
        rcases hk with hk | hk
        · exact ih2.2.1 k (Or.inl (by omega))
        · exact ih2.2.1 k (Or.inr (by omega))
      rw [h3]
      have h2 : getE a2 k = getE a1 k := by
        rcases hk with hk | hk
        · exact ih1.2.1 k (Or.inl (by omega))
        · exact ih1.2.1 k (Or.inr (by omega))
      rw [h2]
      exact hunt1 k hk
    · intro p q hp hpq hq hql
      rcases Nat.lt_trichotomy q pidx with hqp | hqp | hqp
      · -- both strictly left of the pivot
        have hp1 : 1 ≤ pidx := by omega
        rw [huntR p (by omega), huntR q (by omega)]
        exact ih1.2.2 p q hp hpq (by omega) (by rw [hlen1]; omega)
      · subst hqp
        rcases Nat.eq_or_lt_of_le hpq with rfl | hplt
        · exact le_refl _
        · rw [hpv3]
          exact le_of_lt (hleft p hp hplt)
      · rcases Nat.lt_trichotomy p pidx with hpp | hpp | hpp
        · exact le_trans (le_of_lt (hleft p hp hpp)) (hright q hqp hq)
        · subst hpp
          rw [hpv3]
          exact hright q hqp hq
        · exact ih2.2.2 p q (by omega) hpq hq (by rw [hlen2, hlen1]; omega)

theorem quickSort_perm (a : List β) : (quickSort a).2.Perm a := by
  rw [quickSort]
  exact (quickHelper_spec (a.length - 1) a 0 (a.length - 1) (by omega)
    (fun h => by omega)).1

theorem quickSort_sorted (a : List β) : (quickSort a).2.Sorted (· ≤ ·) := by
  rw [quickSort]
  have hspec := quickHelper_spec (a.length - 1) a 0 (a.length - 1) (by omega)
    (fun h => by omega)
  have hlen : (quickSortHelper a 0 (a.length - 1)).2.length = a.length :=
    hspec.1.length_eq
  refine sorted_of_pointwise _ ?_
  intro p q hpq hql
  rw [hlen] at hql
  exact hspec.2.2 p q (by omega) hpq (by omega) (by omega)

theorem quickSort_replay (a : List β) :
    applyMoves a (quickSort a).1 = (quickSort a).2 := by
  rw [quickSort]
  exact quickHelper_replay (a.length - 1) a 0 (a.length - 1) (by omega)

theorem quickSort_bounds (a : List β) :
    ∀ m ∈ (quickSort a).1, MoveInBounds a.length m := by
  rw [quickSort]
  exact quickHelper_bounds (a.length - 1) a 0 (a.length - 1) (by omega)
    (fun h => by omega)

end QuickSorted

section HeapEngine

/-- `HeapChild p c`: position `c` is the left (`2p+1`) or right (`2p+2`)
child of position `p` in the implicit binary heap layout. -/
def HeapChild (p c : ℕ) : Prop := c = 2 * p + 1 ∨ c = 2 * p + 2

/-- `Desc i j`: position `j` lies in the subtree rooted at position `i`. -/
def Desc (i j : ℕ) : Prop := Relation.ReflTransGen HeapChild i j

theorem HeapChild.lt {p c : ℕ} (h : HeapChild p c) : p < c := by
  rcases h with h | h <;> omega

theorem HeapChild.parent_unique {p p' c : ℕ} (h : HeapChild p c)
    (h' : HeapChild p' c) : p = p' := by
  rcases h with h | h <;> rcases h' with h' | h' <;> omega

theorem Desc.le {i j : ℕ} (h : Desc i j) : i ≤ j := by
  induction h with
  | refl => exact le_refl _
  | tail _ hstep ih => exact le_trans ih (le_of_lt hstep.lt)

theorem Desc.refl (i : ℕ) : Desc i i := Relation.ReflTransGen.refl

theorem Desc.head {i c j : ℕ} (h : HeapChild i c) (h' : Desc c j) : Desc i j :=
  Relation.ReflTransGen.head h h'

theorem Desc.cases_head {i j : ℕ} (h : Desc i j) :
    j = i ∨ ∃ c, HeapChild i c ∧ Desc c j := by
  rcases Relation.ReflTransGen.cases_head h with h | ⟨c, hc, hcj⟩
  · exact Or.inl h.symm
  · exact Or.inr ⟨c, hc, hcj⟩

theorem Desc.cases_tail {i j : ℕ} (h : Desc i j) :
    j = i ∨ ∃ d, Desc i d ∧ HeapChild d j := by
  rcases Relation.ReflTransGen.cases_tail h with h | ⟨d, hd, hdj⟩
  · exact Or.inl h
  · exact Or.inr ⟨d, hd, hdj⟩

theorem not_desc_of_lt {i j : ℕ} (h : j < i) : ¬ Desc i j :=
  fun hd => absurd hd.le (by omega)

theorem desc_ge_first_child {L j : ℕ} (h : Desc L j) (hne : j ≠ L) :
    2 * L + 1 ≤ j := by
  rcases h.cases_head with rfl | ⟨c, hc, hcj⟩
  · exact absurd rfl hne
  · have h1 := hcj.le
    rcases hc with hc | hc <;> omega

theorem not_desc_of_parent_outside {L p c : ℕ} (hp : p < L)
    (hchild : HeapChild p c) (hne : c ≠ L) : ¬ Desc L c := by
  intro hd
  rcases hd.cases_tail with heq | ⟨d, hdL, hdc⟩
  · exact hne heq
  · have : d = p := hdc.parent_unique hchild
    subst this
    exact absurd hdL.le (by omega)

variable [Inhabited α] [LT α] [DecidableRel ((· < ·) : α → α → Prop)]

/-- The child-selection of `heapify` (source lines 208-218): `largest`
starts at `i`, is replaced by `left = 2i+1` when `left < max` and
`array[left] > array[largest]`, then by `right = 2i+2` when `right < max`
and `array[right] > array[largest]`. -/
def largestIdx (a : List α) (i max : ℕ) : ℕ :=
  let l1 := if 2 * i + 1 < max ∧ getE a i < getE a (2 * i + 1) then 2 * i + 1 else i
  if 2 * i + 2 < max ∧ getE a l1 < getE a (2 * i + 2) then 2 * i + 2 else l1

theorem largestIdx_cases (a : List α) (i max : ℕ) :
    largestIdx a i max = i ∨
      (HeapChild i (largestIdx a i max) ∧ largestIdx a i max < max) := by
  rw [largestIdx]
  by_cases h1 : 2 * i + 1 < max ∧ getE a i < getE a (2 * i + 1)
  · rw [if_pos h1]
    by_cases h2 : 2 * i + 2 < max ∧ getE a (2 * i + 1) < getE a (2 * i + 2)
    · rw [if_pos h2]
      exact Or.inr ⟨Or.inr rfl, h2.1⟩
    · rw [if_neg h2]
      exact Or.inr ⟨Or.inl rfl, h1.1⟩
  · rw [if_neg h1]
    by_cases h2 : 2 * i + 2 < max ∧ getE a i < getE a (2 * i + 2)
    · rw [if_pos h2]
      exact Or.inr ⟨Or.inr rfl, h2.1⟩
    · rw [if_neg h2]
      exact Or.inl rfl

/-- The recursive sift-down `heapify` (source lines 207-225): when the
selected `largest` differs from `i`, push `{indices: [i, largest],
type: "swap"}`, swap, and recurse at `largest`. -/
def heapify (a : List α) (i max : ℕ) : List (Move α) × List α :=
  if h : largestIdx a i max ≠ i then
    let p := heapify (applyMove a (Move.swap i (largestIdx a i max)))
      (largestIdx a i max) max
    (Move.swap i (largestIdx a i max) :: p.1, p.2)
  else ([], a)
termination_by max - i
decreasing_by
  rcases largestIdx_cases a i max with heq | ⟨hchild, hlt⟩
  · exact absurd heq h
  · have := hchild.lt
    omega

theorem heapify_eq (a : List α) (i max : ℕ) : heapify a i max =
    if largestIdx a i max ≠ i then
      (Move.swap i (largestIdx a i max) ::
        (heapify (applyMove a (Move.swap i (largestIdx a i max)))
          (largestIdx a i max) max).1,
       (heapify (applyMove a (Move.swap i (largestIdx a i max)))
          (largestIdx a i max) max).2)
    else ([], a) := by
  rw [heapify]
  by_cases h : largestIdx a i max ≠ i
  · rw [dif_pos h, if_pos h]
  · rw [dif_neg h, if_neg h]

theorem heapify_perm : ∀ (n : ℕ) (a : List α) (i max : ℕ), max - i ≤ n →
    max ≤ a.length → (heapify a i max).2.Perm a := by
  intro n
  induction n with
  | zero =>
    intro a i max hn hmax
    rw [heapify_eq]
    rcases largestIdx_cases a i max with heq | ⟨hchild, hlt⟩
    · rw [if_neg (by omega)]
    · have := hchild.lt
      exact absurd hlt (by omega)
  | succ n ih =>
    intro a i max hn hmax
    rw [heapify_eq]
    by_cases h : largestIdx a i max ≠ i
    · rw [if_pos h]
      dsimp only
      rcases largestIdx_cases a i max with heq | ⟨hchild, hlt⟩
      · exact absurd heq h
      · have hil := hchild.lt
        refine (ih (applyMove a (Move.swap i (largestIdx a i max)))
          (largestIdx a i max) max (by omega)
          (by rw [length_applyMove]; omega)).trans ?_
        exact perm_applyMove_of_swap a i (largestIdx a i max) (by omega) (by omega)
    · rw [if_neg h]

theorem heapify_length (n : ℕ) (a : List α) (i max : ℕ) (hn : max - i ≤ n)
    (hmax : max ≤ a.length) : (heapify a i max).2.length = a.length :=
  (heapify_perm n a i max hn hmax).length_eq

theorem heapify_replay : ∀ (n : ℕ) (a : List α) (i max : ℕ), max - i ≤ n →
    applyMoves a (heapify a i max).1 = (heapify a i max).2 := by
  intro n
  induction n with
  | zero =>
    intro a i max hn
    rw [heapify_eq]
    rcases largestIdx_cases a i max with heq | ⟨hchild, hlt⟩
    · rw [if_neg (by omega)]
      rfl
    · have := hchild.lt
      exact absurd hlt (by omega)
  | succ n ih =>
    intro a i max hn
    rw [heapify_eq]
    by_cases h : largestIdx a i max ≠ i
    · rw [if_pos h]
      dsimp only
      rw [applyMoves_cons]
      rcases largestIdx_cases a i max with heq | ⟨hchild, hlt⟩
      · exact absurd heq h
      · have := hchild.lt
        exact ih (applyMove a (Move.swap i (largestIdx a i max)))
          (largestIdx a i max) max (by omega)
    · rw [if_neg h]
      rfl

theorem heapify_bounds : ∀ (n : ℕ) (a : List α) (i max : ℕ), max - i ≤ n →
    ∀ m ∈ (heapify a i max).1, ∃ u v, m = Move.swap u v ∧ u < max ∧ v < max := by
  intro n
  induction n with
  | zero =>
    intro a i max hn m hm
    rw [heapify_eq] at hm
    rcases largestIdx_cases a i max with heq | ⟨hchild, hlt⟩
    · rw [if_neg (by omega)] at hm
      simp at hm
    · have := hchild.lt
      exact absurd hlt (by omega)
  | succ n ih =>
    intro a i max hn m hm
    rw [heapify_eq] at hm
    by_cases h : largestIdx a i max ≠ i
    · rw [if_pos h] at hm
      dsimp only at hm
      rcases largestIdx_cases a i max with heq | ⟨hchild, hlt⟩
      · exact absurd heq h
      · have := hchild.lt
        rcases List.mem_cons.mp hm with rfl | hm'
        · exact ⟨i, largestIdx a i max, rfl, by omega, hlt⟩
        · exact ih (applyMove a (Move.swap i (largestIdx a i max)))
            (largestIdx a i max) max (by omega) m hm'
    · rw [if_neg h] at hm
      simp at hm

theorem heapify_untouched : ∀ (n : ℕ) (a : List α) (i max : ℕ), max - i ≤ n →
    max ≤ a.length →
    ∀ k, ¬ Desc i k → getE (heapify a i max).2 k = getE a k := by
  intro n
  induction n with
  | zero =>
    intro a i max hn hmax k hk
    rw [heapify_eq]
    rcases largestIdx_cases a i max with heq | ⟨hchild, hlt⟩
    · rw [if_neg (by omega)]
    · have := hchild.lt
      exact absurd hlt (by omega)
  | succ n ih =>
    intro a i max hn hmax k hk
    rw [heapify_eq]
    by_cases h : largestIdx a i max ≠ i
    · rw [if_pos h]
      dsimp only
      rcases largestIdx_cases a i max with heq | ⟨hchild, hlt⟩
      · exact absurd heq h
      · have hil := hchild.lt
        have hnk : ¬ Desc (largestIdx a i max) k := by
          intro hd
          exact hk (Desc.head hchild hd)
        rw [ih (applyMove a (Move.swap i (largestIdx a i max)))
          (largestIdx a i max) max (by omega) (by rw [length_applyMove]; omega)
          k hnk]
        rw [getE_applyMove_swap a i (largestIdx a i max) k (by omega) (by omega)]
        rw [if_neg, if_neg]
        · intro heq
          exact hk (heq ▸ Desc.head hchild (Desc.refl _))
        · intro heq
          exact hk (heq ▸ Desc.refl i)
    · rw [if_neg h]

theorem heapify_untouched_ge : ∀ (n : ℕ) (a : List α) (i max : ℕ), max - i ≤ n →
    max ≤ a.length →
    ∀ k, max ≤ k → getE (heapify a i max).2 k = getE a k := by
  intro n
  induction n with
  | zero =>
    intro a i max hn hmax k hk
    rw [heapify_eq]
    rcases largestIdx_cases a i max with heq | ⟨hchild, hlt⟩
    · rw [if_neg (by omega)]
    · have := hchild.lt
      exact absurd hlt (by omega)
  | succ n ih =>
    intro a i max hn hmax k hk
    rw [heapify_eq]
    by_cases h : largestIdx a i max ≠ i
    · rw [if_pos h]
      dsimp only
      rcases largestIdx_cases a i max with heq | ⟨hchild, hlt⟩
      · exact absurd heq h
      · have hil := hchild.lt
        rw [ih (applyMove a (Move.swap i (largestIdx a i max)))
          (largestIdx a i max) max (by omega) (by rw [length_applyMove]; omega)
          k hk]
        rw [getE_applyMove_swap a i (largestIdx a i max) k (by omega) (by omega)]
        rw [if_neg (by omega), if_neg (by omega)]
    · rw [if_neg h]

end HeapEngine

section HeapSorted

variable {β : Type} [Inhabited β] [LinearOrder β]

theorem largestIdx_self_le (a : List β) (i max : ℕ) (h : largestIdx a i max = i) :
    ∀ c, HeapChild i c → c < max → getE a c ≤ getE a i := by
  intro c hc hcm
  rw [largestIdx] at h
  by_cases h1 : 2 * i + 1 < max ∧ getE a i < getE a (2 * i + 1)
  · rw [if_pos h1] at h
    by_cases h2 : 2 * i + 2 < max ∧ getE a (2 * i + 1) < getE a (2 * i + 2)
    · rw [if_pos h2] at h
      omega
    · rw [if_neg h2] at h
      omega
  · rw [if_neg h1] at h
    by_cases h2 : 2 * i + 2 < max ∧ getE a i < getE a (2 * i + 2)
    · rw [if_pos h2] at h
      omega
    · rcases hc with rfl | rfl
      · exact le_of_not_lt (fun hb => h1 ⟨hcm, hb⟩)
      · exact le_of_not_lt (fun hb => h2 ⟨hcm, hb⟩)

theorem largestIdx_ge (a : List β) (i max : ℕ) :
    getE a i ≤ getE a (largestIdx a i max) ∧
    ∀ c, HeapChild i c → c < max → getE a c ≤ getE a (largestIdx a i max) := by
  rw [largestIdx]
  by_cases h1 : 2 * i + 1 < max ∧ getE a i < getE a (2 * i + 1)
  · rw [if_pos h1]
    by_cases h2 : 2 * i + 2 < max ∧ getE a (2 * i + 1) < getE a (2 * i + 2)
    · rw [if_pos h2]
      refine ⟨le_of_lt (lt_trans h1.2 h2.2), ?_⟩
      intro c hc hcm
      rcases hc with rfl | rfl
      · exact le_of_lt h2.2
      · exact le_refl _
    · rw [if_neg h2]
      refine ⟨le_of_lt h1.2, ?_⟩
      intro c hc hcm
      rcases hc with rfl | rfl
      · exact le_refl _
      · exact le_of_not_lt (fun hb => h2 ⟨hcm, hb⟩)
  · rw [if_neg h1]
    by_cases h2 : 2 * i + 2 < max ∧ getE a i < getE a (2 * i + 2)
    · rw [if_pos h2]
      refine ⟨le_of_lt h2.2, ?_⟩
      intro c hc hcm
      rcases hc with rfl | rfl
      · exact le_trans (le_of_not_lt (fun hb => h1 ⟨hcm, hb⟩)) (le_of_lt h2.2)
      · exact le_refl _
    · rw [if_neg h2]
      refine ⟨le_refl _, ?_⟩
      intro c hc hcm
      rcases hc with rfl | rfl
      · exact le_of_not_lt (fun hb => h1 ⟨hcm, hb⟩)
      · exact le_of_not_lt (fun hb => h2 ⟨hcm, hb⟩)

theorem desc_dominates (a : List β) (max r : ℕ)
    (H : ∀ p c, r ≤ p → HeapChild p c → c < max → getE a c ≤ getE a p)
    (j : ℕ) (hd : Desc r j) (hj : j < max) : getE a j ≤ getE a r := by
  have key : ∀ s, Desc s j → r ≤ s → getE a j ≤ getE a s := by
    intro s hsj
    induction hsj using Relation.ReflTransGen.head_induction_on with
    | refl => intro _; exact le_refl _
    | head hstep hrest ih =>
      rename_i s' c'
      intro hrs
      have hrc : r ≤ c' := le_trans hrs (le_of_lt hstep.lt)
      have hcj : c' ≤ j := Desc.le hrest
      exact le_trans (ih hrc) (H s' c' hrs hstep (by omega))
  exact key r hd (le_refl r)

theorem heapify_spec : ∀ (n : ℕ) (a : List β) (i max : ℕ), max - i ≤ n →
    max ≤ a.length →
    (∀ p c, i < p → HeapChild p c → c < max → getE a c ≤ getE a p) →
    (∀ p c, i ≤ p → HeapChild p c → c < max →
      getE (heapify a i max).2 c ≤ getE (heapify a i max).2 p) ∧
    (i < max → ∃ j, Desc i j ∧ j < max ∧ getE (heapify a i max).2 i = getE a j) := by
  intro n
  induction n with
  | zero =>
    intro a i max hn hmax H1
    rw [heapify_eq]
    rcases largestIdx_cases a i max with heq | ⟨hchild, hlt⟩
    swap
    · have := hchild.lt
      exact absurd hlt (by omega)
    rw [if_neg (by omega)]
    constructor
    · intro p c hp hc hcm
      have := hc.lt
      rcases Nat.eq_or_lt_of_le hp with rfl | hplt
      · exact absurd hcm (by omega)
      · exact H1 p c hplt hc hcm
    · intro him
      exact absurd him (by omega)
  | succ n ih =>
    intro a i max hn hmax H1
    rw [heapify_eq]
    by_cases h : largestIdx a i max ≠ i
    swap
    · rw [if_neg h]
      have heq : largestIdx a i max = i := by omega
      constructor
      · intro p c hp hc hcm
        rcases Nat.eq_or_lt_of_le hp with rfl | hplt
        · exact largestIdx_self_le a i max heq c hc hcm
        · exact H1 p c hplt hc hcm
      · intro him
        exact ⟨i, Desc.refl i, him, rfl⟩
    rw [if_pos h]
    dsimp only
    rcases largestIdx_cases a i max with heq | ⟨hchild, hL⟩
    · exact absurd heq h
    set L := largestIdx a i max with hLdef
    have hiL : i < L := hchild.lt
    set a' := applyMove a (Move.swap i L) with ha'
    have hlen' : a'.length = a.length := length_applyMove a _
    have hget : ∀ k, getE a' k =
        if k = i then getE a L else if k = L then getE a i else getE a k :=
      fun k => getE_applyMove_swap a i L k (by omega) (by omega)
    have H1' : ∀ p c, L < p → HeapChild p c → c < max → getE a' c ≤ getE a' p := by
      intro p c hp hc hcm
      have hcp := hc.lt
      rw [hget p, hget c]
      rw [if_neg (by omega), if_neg (by omega), if_neg (by omega), if_neg (by omega)]
      exact H1 p c (by omega) hc hcm
    have hrec := ih a' L max (by omega) (by omega) H1'
    set a2 := (heapify a' L max).2 with ha2
    have hunt : ∀ k, ¬ Desc L k → getE a2 k = getE a' k :=
      heapify_untouched (max - L) a' L max (le_refl _) (by omega)
    have hroot2 : getE a2 i = getE a L := by
      rw [hunt i (not_desc_of_lt hiL), hget i, if_pos rfl]
    have hge := largestIdx_ge a i max
    rw [← hLdef] at hge
    have hA2L : getE a2 L ≤ getE a L := by
      obtain ⟨j', hdj', hj'm, hval⟩ := hrec.2 hL
      rw [hval]
      rcases Nat.eq_or_lt_of_le (Desc.le hdj') with rfl | hj'gt
      · rw [hget L, if_neg (by omega), if_pos rfl]
        exact hge.1
      · have hj1 : 2 * L + 1 ≤ j' := desc_ge_first_child hdj' (by omega)
        rw [hget j', if_neg (by omega), if_neg (by omega)]
        refine desc_dominates a max L ?_ j' hdj' hj'm
        intro p c hp hc hcm
        exact H1 p c (by omega) hc hcm
    constructor
    · intro p c hp hc hcm
      have hcp := hc.lt
      rcases Nat.lt_trichotomy p L with hpL | hpL | hpL
      · rcases Nat.eq_or_lt_of_le hp with rfl | hplt
        · -- p = i : children are L and possibly its sibling
          by_cases hcL : c = L
          · subst hcL
            rw [hroot2]
            exact hA2L
          · have hndesc : ¬ Desc L c := by
              intro hd
              have := desc_ge_first_child hd hcL
              rcases hchild with hch | hch <;> rcases hc with hcc | hcc <;> omega
            rw [hunt c hndesc, hroot2, hget c, if_neg (by omega), if_neg hcL]
            exact hge.2 c hc hcm
        · -- i < p < L
          have hcL : c ≠ L := by
            intro hceq
            subst hceq
            have := hc.parent_unique hchild
            omega
          have hndc : ¬ Desc L c := not_desc_of_parent_outside hpL hc hcL
          have hndp : ¬ Desc L p := not_desc_of_lt hpL
          rw [hunt c hndc, hunt p hndp, hget c, hget p]
          rw [if_neg (by omega), if_neg hcL, if_neg (by omega), if_neg (by omega)]
          exact H1 p c hplt hc hcm
      · subst hpL
        exact hrec.1 L c (le_refl _) hc hcm
      · exact hrec.1 p c (by omega) hc hcm
    · intro him
      refine ⟨L, Desc.head hchild (Desc.refl L), hL, ?_⟩
      exact hroot2

end HeapSorted

section HeapLoops

variable [Inhabited α] [LT α] [DecidableRel ((· < ·) : α → α → Prop)]

/-- The loop of `buildMaxHeap` (source lines 201-205): `heapify` each index
from `floor(length/2) - 1` down to `0`; the argument `k` stands for `i + 1`. -/
def buildLoop : List α → ℕ → List (Move α) × List α
  | a, 0 => ([], a)
  | a, k + 1 =>
    let p := heapify a k a.length
    let q := buildLoop p.2 k
    (p.1 ++ q.1, q.2)

/-- `buildMaxHeap` (source lines 201-205). -/
def buildMaxHeap (a : List α) : List (Move α) × List α := buildLoop a (a.length / 2)

/-- The extraction loop of `heapSort` (source lines 193-197): for
`end = length - 1` down to `1`, push `{indices: [0, end], type: "swap"}`,
swap the root with position `end`, and re-`heapify` the shrunk region
`[0, end)`.  The argument `e` is the current `end`. -/
def extractLoop : List α → ℕ → List (Move α) × List α
  | a, 0 => ([], a)
  | a, e + 1 =>
    let a1 := applyMove a (Move.swap 0 (e + 1))
    let p := heapify a1 0 (e + 1)
    let q := extractLoop p.2 e
    (Move.swap 0 (e + 1) :: (p.1 ++ q.1), q.2)

/-- The `heapSort` engine (source lines 190-199). -/
def heapSort (a : List α) : List (Move α) × List α :=
  let b := buildMaxHeap a
  let e := extractLoop b.2 (a.length - 1)
  (b.1 ++ e.1, e.2)

theorem buildLoop_perm : ∀ (k : ℕ) (a : List α), (buildLoop a k).2.Perm a := by
  intro k
  induction k with
  | zero => intro a; exact List.Perm.refl a
  | succ k ih =>
    intro a
    show (buildLoop (heapify a k a.length).2 k).2.Perm a
    exact (ih _).trans (heapify_perm a.length a k a.length (by omega) (le_refl _))

theorem buildLoop_length (k : ℕ) (a : List α) :
    (buildLoop a k).2.length = a.length := (buildLoop_perm k a).length_eq

theorem buildLoop_replay : ∀ (k : ℕ) (a : List α),
    applyMoves a (buildLoop a k).1 = (buildLoop a k).2 := by
  intro k
  induction k with
  | zero => intro a; rfl
  | succ k ih =>
    intro a
    show applyMoves a ((heapify a k a.length).1 ++ (buildLoop (heapify a k a.length).2 k).1)
      = (buildLoop (heapify a k a.length).2 k).2
    rw [applyMoves_append,
      heapify_replay (a.length - k) a k a.length (le_refl _)]
    exact ih _

theorem buildLoop_bounds : ∀ (k : ℕ) (a : List α),
    ∀ m ∈ (buildLoop a k).1, MoveInBounds a.length m := by
  intro k
  induction k with
  | zero => intro a m hm; simp [buildLoop] at hm
  | succ k ih =>
    intro a m hm
    rcases List.mem_append.mp hm with hm1 | hm2
    · obtain ⟨u, v, rfl, hu, hv⟩ := heapify_bounds (a.length - k) a k a.length
        (le_refl _) m hm1
      exact ⟨hu, hv⟩
    · have := ih (heapify a k a.length).2 m hm2
      rwa [heapify_length (a.length - k) a k a.length (le_refl _) (le_refl _)]
        at this

theorem extractLoop_perm : ∀ (e : ℕ) (a : List α), (e ≠ 0 → e < a.length) →
    (extractLoop a e).2.Perm a := by
  intro e
  induction e with
  | zero => intro a _; exact List.Perm.refl a
  | succ e ih =>
    intro a he
    have hlen : e + 1 < a.length := he (by omega)
    show (extractLoop (heapify (applyMove a (Move.swap 0 (e + 1))) 0 (e + 1)).2 e).2.Perm a
    have h1 : (applyMove a (Move.swap 0 (e + 1))).length = a.length :=
      length_applyMove a _
    have h2 := heapify_perm (e + 1) (applyMove a (Move.swap 0 (e + 1))) 0 (e + 1)
      (le_refl _) (by omega)
    have h3 := ih (heapify (applyMove a (Move.swap 0 (e + 1))) 0 (e + 1)).2
      (by rw [h2.length_eq, h1]; omega)
    exact (h3.trans h2).trans (perm_applyMove_of_swap a 0 (e + 1) (by omega) hlen)

theorem extractLoop_length (e : ℕ) (a : List α) (he : e ≠ 0 → e < a.length) :
    (extractLoop a e).2.length = a.length := (extractLoop_perm e a he).length_eq

theorem extractLoop_replay : ∀ (e : ℕ) (a : List α),
    applyMoves a (extractLoop a e).1 = (extractLoop a e).2 := by
  intro e
  induction e with
  | zero => intro a; rfl
  | succ e ih =>
    intro a
    show applyMoves a (Move.swap 0 (e + 1) ::
        ((heapify (applyMove a (Move.swap 0 (e + 1))) 0 (e + 1)).1 ++
          (extractLoop (heapify (applyMove a (Move.swap 0 (e + 1))) 0 (e + 1)).2 e).1))
      = _
    rw [applyMoves_cons, applyMoves_append,
      heapify_replay (e + 1) (applyMove a (Move.swap 0 (e + 1))) 0 (e + 1) (le_refl _)]
    exact ih _

theorem extractLoop_bounds : ∀ (e : ℕ) (a : List α), (e ≠ 0 → e < a.length) →
    ∀ m ∈ (extractLoop a e).1, MoveInBounds a.length m := by
  intro e
  induction e with
  | zero => intro a _ m hm; simp [extractLoop] at hm
  | succ e ih =>
    intro a he m hm
    have hlen : e + 1 < a.length := he (by omega)
    have h1 : (applyMove a (Move.swap 0 (e + 1))).length = a.length :=
      length_applyMove a _
    have h2 := heapify_length (e + 1) (applyMove a (Move.swap 0 (e + 1))) 0 (e + 1)
      (le_refl _) (by omega)
    rcases List.mem_cons.mp hm with rfl | hm'
    · exact ⟨by omega, hlen⟩
    · rcases List.mem_append.mp hm' with hm1 | hm2
      · obtain ⟨u, v, rfl, hu, hv⟩ := heapify_bounds (e + 1)
          (applyMove a (Move.swap 0 (e + 1))) 0 (e + 1) (le_refl _) m hm1
        exact ⟨by omega, by omega⟩
      · have := ih (heapify (applyMove a (Move.swap 0 (e + 1))) 0 (e + 1)).2
          (by rw [h2, h1]; omega) m hm2
        rwa [h2, h1] at this

theorem heapSort_perm (a : List α) : (heapSort a).2.Perm a := by
  show (extractLoop (buildMaxHeap a).2 (a.length - 1)).2.Perm a
  have hblen : (buildMaxHeap a).2.length = a.length := buildLoop_length _ a
  refine (extractLoop_perm (a.length - 1) (buildMaxHeap a).2 ?_).trans
    (buildLoop_perm _ a)
  rw [hblen]
  omega

theorem heapSort_length (a : List α) : (heapSort a).2.length = a.length :=
  (heapSort_perm a).length_eq

theorem heapSort_replay (a : List α) :
    applyMoves a (heapSort a).1 = (heapSort a).2 := by
  show applyMoves a ((buildMaxHeap a).1 ++ (extractLoop (buildMaxHeap a).2 (a.length - 1)).1)
    = (extractLoop (buildMaxHeap a).2 (a.length - 1)).2
  rw [applyMoves_append]
  show applyMoves (applyMoves a (buildLoop a (a.length / 2)).1) _ = _
  rw [buildLoop_replay]
  exact extractLoop_replay _ _

theorem heapSort_bounds (a : List α) :
    ∀ m ∈ (heapSort a).1, MoveInBounds a.length m := by
  intro m hm
  have hblen : (buildMaxHeap a).2.length = a.length := buildLoop_length _ a
  rcases List.mem_append.mp hm with hm1 | hm2
  · exact buildLoop_bounds _ a m hm1
  · have := extractLoop_bounds (a.length - 1) (buildMaxHeap a).2
      (by rw [hblen]; omega) m hm2
    rwa [hblen] at this

end HeapLoops

section HeapSortSorted

variable {β : Type} [Inhabited β] [LinearOrder β]

theorem buildLoop_pairs : ∀ (k : ℕ) (a : List β),
    (∀ p c, k ≤ p → HeapChild p c → c < a.length → getE a c ≤ getE a p) →
    ∀ p c, HeapChild p c → c < a.length →
      getE (buildLoop a k).2 c ≤ getE (buildLoop a k).2 p := by
  intro k
  induction k with
  | zero =>
    intro a H p c hc hcm
    exact H p c (Nat.zero_le p) hc hcm
  | succ k ih =>
    intro a H p c hc hcm
    show getE (buildLoop (heapify a k a.length).2 k).2 c ≤
      getE (buildLoop (heapify a k a.length).2 k).2 p
    have hlen : (heapify a k a.length).2.length = a.length :=
      heapify_length (a.length - k) a k a.length (le_refl _) (le_refl _)
    have hspec := heapify_spec (a.length - k) a k a.length (le_refl _) (le_refl _)
      (fun p' c' hp' hc' hcm' => H p' c' (by omega) hc' hcm')
    refine ih (heapify a k a.length).2 ?_ p c hc (by rwa [hlen])
    intro p' c' hp' hc' hcm'
    rw [hlen] at hcm'
    exact hspec.1 p' c' (by omega) hc' hcm'

theorem buildMaxHeap_pairs (a : List β) :
    ∀ p c, HeapChild p c → c < a.length →
      getE (buildMaxHeap a).2 c ≤ getE (buildMaxHeap a).2 p := by
  refine buildLoop_pairs (a.length / 2) a ?_
  intro p c hp hc hcm
  rcases hc with hc | hc <;> omega

theorem heap_root_max (a : List β) (max : ℕ)
    (H : ∀ p c, HeapChild p c → c < max → getE a c ≤ getE a p) :
    ∀ j, j < max → getE a j ≤ getE a 0 := by
  intro j
  induction j using Nat.strong_induction_on with
  | _ j ih =>
    intro hj
    match j with
    | 0 => exact le_refl _
    | j + 1 =>
      have hpar : HeapChild (j / 2) (j + 1) := by
        rw [HeapChild]
        omega
      have h1 : getE a (j + 1) ≤ getE a (j / 2) := H (j / 2) (j + 1) hpar hj
      have h2 : getE a (j / 2) ≤ getE a 0 := ih (j / 2) (by omega) (by omega)
      exact le_trans h1 h2

theorem extractLoop_spec : ∀ (e : ℕ) (a : List β), (e ≠ 0 → e < a.length) →
    (∀ p c, HeapChild p c → c < e + 1 → getE a c ≤ getE a p) →
    (∀ p q, e < p → p ≤ q → q < a.length → getE a p ≤ getE a q) →
    (∀ p q, p ≤ e → e < q → q < a.length → getE a p ≤ getE a q) →
    ∀ p q, p ≤ q → q < a.length →
      getE (extractLoop a e).2 p ≤ getE (extractLoop a e).2 q := by
  intro e
  induction e with
  | zero =>
    intro a _ I1 I2 I3 p q hpq hq
    rcases Nat.eq_or_lt_of_le hpq with rfl | hlt
    · exact le_refl _
    · match p with
      | 0 => exact I3 0 q (le_refl _) (by omega) hq
      | p + 1 => exact I2 (p + 1) q (by omega) hpq hq
  | succ e ih =>
    intro a he I1 I2 I3 p q hpq hq
    have hlen : e + 1 < a.length := he (by omega)
    show getE (extractLoop (heapify (applyMove a (Move.swap 0 (e + 1))) 0 (e + 1)).2 e).2 p ≤ _
    set a1 := applyMove a (Move.swap 0 (e + 1)) with ha1
    have hlen1 : a1.length = a.length := length_applyMove a _
    have hget1 : ∀ k, getE a1 k =
        if k = 0 then getE a (e + 1) else if k = e + 1 then getE a 0 else getE a k :=
      fun k => getE_applyMove_swap a 0 (e + 1) k (by omega) hlen
    have hroot := heap_root_max a (e + 2) I1
    -- heap pairs survive the swap for parents above the root
    have H1 : ∀ p' c', 0 < p' → HeapChild p' c' → c' < e + 1 →
        getE a1 c' ≤ getE a1 p' := by
      intro p' c' hp' hc' hcm'
      have hcp' := hc'.lt
      by_cases hpe : p' = e + 1
      · exfalso
        rcases hc' with hc' | hc' <;> omega
      · rw [hget1 p', hget1 c']
        rw [if_neg (by omega), if_neg hpe, if_neg (by omega), if_neg (by omega)]
        exact I1 p' c' hc' (by omega)
    have hspec := heapify_spec (e + 1) a1 0 (e + 1) (le_refl _) (by omega) H1
    set a2 := (heapify a1 0 (e + 1)).2 with ha2
    have hlen2 : a2.length = a1.length :=
      heapify_length (e + 1) a1 0 (e + 1) (le_refl _) (by omega)
    have hunt2 : ∀ k, e + 1 ≤ k → getE a2 k = getE a1 k :=
      heapify_untouched_ge (e + 1) a1 0 (e + 1) (le_refl _) (by omega)
    -- every value still inside the heap region is at most the extracted maximum
    have hheapval : ∀ k, k ≤ e → getE a2 k ≤ getE a 0 := by
      intro k hk
      have hmem : getE a2 k ∈ slice a2 0 e := by
        rw [mem_slice_iff]
        exact ⟨k, Nat.zero_le k, hk, by omega, rfl⟩
      have hsliceperm : (slice a2 0 e).Perm (slice a1 0 e) := by
        refine slice_perm_of_perm a2 a1 0 e
          (heapify_perm (e + 1) a1 0 (e + 1) (le_refl _) (by omega))
          (by omega) (fun k' hk' => absurd hk' (by omega)) ?_
        intro k' hk1' hk2'
        exact hunt2 k' (by omega)
      have hmem1 : getE a2 k ∈ slice a1 0 e := hsliceperm.mem_iff.mp hmem
      obtain ⟨k', hk1', hk2', hk3', hval'⟩ := (mem_slice_iff _ _ _ _).mp hmem1
      rw [← hval', hget1 k']
      by_cases hk0 : k' = 0
      · rw [if_pos hk0]
        exact hroot (e + 1) (by omega)
      · rw [if_neg hk0, if_neg (by omega)]
        exact hroot k' (by omega)
    have I2' : ∀ p' q', e < p' → p' ≤ q' → q' < a2.length → getE a2 p' ≤ getE a2 q' := by
      intro p' q' hp' hpq' hq'
      rw [hlen2, hlen1] at hq'
      rw [hunt2 p' (by omega), hunt2 q' (by omega)]
      rw [hget1 p', hget1 q']
      by_cases hpe : p' = e + 1
      · rw [if_neg (by omega), if_pos hpe]
        by_cases hqe : q' = e + 1
        · rw [if_neg (by omega), if_pos hqe]
        · rw [if_neg (by omega), if_neg hqe]
          exact I3 0 q' (by omega) (by omega) hq'
      · rw [if_neg (by omega), if_neg hpe]
        have hqe : q' ≠ e + 1 := by omega
        rw [if_neg (by omega), if_neg hqe]
        exact I2 p' q' (by omega) hpq' hq'
    have I3' : ∀ p' q', p' ≤ e → e < q' → q' < a2.length → getE a2 p' ≤ getE a2 q' := by
      intro p' q' hp' hq1' hq2'
      rw [hlen2, hlen1] at hq2'
      have hstep1 : getE a2 p' ≤ getE a 0 := hheapval p' hp'
      rw [hunt2 q' (by omega), hget1 q']
      by_cases hqe : q' = e + 1
      · rw [if_neg (by omega), if_pos hqe]
        exact hstep1
      · rw [if_neg (by omega), if_neg hqe]
        exact le_trans hstep1 (I3 0 q' (by omega) (by omega) hq2')
    refine ih a2 (by rw [hlen2, hlen1]; omega) ?_ I2' I3' p q hpq
      (by rw [hlen2, hlen1]; omega)
    intro p' c' hc' hcm'
    exact hspec.1 p' c' (Nat.zero_le p') hc' hcm'

theorem heapSort_sorted (a : List β) : (heapSort a).2.Sorted (· ≤ ·) := by
  refine sorted_of_pointwise _ ?_
  intro p q hpq hq
  rw [heapSort_length] at hq
  show getE (extractLoop (buildMaxHeap a).2 (a.length - 1)).2 p ≤ _
  have hblen : (buildMaxHeap a).2.length = a.length := buildLoop_length _ a
  refine extractLoop_spec (a.length - 1) (buildMaxHeap a).2
    (by rw [hblen]; omega) ?_ ?_ ?_ p q hpq (by rw [hblen]; omega)
  · intro p' c' hc' hcm'
    exact buildMaxHeap_pairs a p' c' hc' (by omega)
  · intro p' q' hp' hpq' hq'
    rw [hblen] at hq'
    exact absurd hq' (by omega)
  · intro p' q' hp' hq1' hq2'
    rw [hblen] at hq2'
    exact absurd hq2' (by omega)

end HeapSortSorted

section Dispatcher

variable {β : Type} [Inhabited β] [LinearOrder β]

/-- The `switch (algorithm)` of `sortAndAnimate` (source lines 99-126):
each recognized name runs its engine against the private copy and collects
its moves; an unrecognized name falls through `default: break`, leaving
`sortingMoves` as the empty list. -/
def sortingMovesFor (alg : String) (a : List β) : List (Move β) :=
  if alg = "bubble" then (bubbleSort a).1
  else if alg = "merge" then (mergeSortE a).1
  else if alg = "heap" then (heapSort a).1
  else if alg = "quick" then (quickSort a).1
  else if alg = "insertion" then (insertionSort a).1
  else if alg = "selection" then (selectionSort a).1
  else []

theorem sortingMovesFor_spec (alg : String) (a : List β)
    (halg : alg ∈ ["bubble", "insertion", "selection", "heap", "quick", "merge"]) :
    (applyMoves a (sortingMovesFor alg a)).Sorted (· ≤ ·) ∧
    (applyMoves a (sortingMovesFor alg a)).Perm a := by
  simp only [List.mem_cons, List.not_mem_nil, or_false] at halg
  rcases halg with rfl | rfl | rfl | rfl | rfl | rfl
  · rw [sortingMovesFor, if_pos rfl, bubbleSort, bubbleLoop_replay]
    exact ⟨bubbleLoop_sorted a, bubbleLoop_perm a⟩
  · rw [sortingMovesFor, if_neg (by decide), if_neg (by decide), if_neg (by decide),
      if_neg (by decide), if_pos rfl]
    rw [insertionSort, insertOuter_replay (a.length - 1) a 1 (by omega)]
    have h1 := insertionSort_sorted a
    have h2 := insertionSort_perm a
    rw [insertionSort] at h1 h2
    exact ⟨h1, h2⟩
  · rw [sortingMovesFor, if_neg (by decide), if_neg (by decide), if_neg (by decide),
      if_neg (by decide), if_neg (by decide), if_pos rfl]
    have h0 := selectionSort_replay a
    rw [selectionSort] at h0 ⊢
    rw [h0]
    have h1 := selectionSort_sorted a
    have h2 := selectionSort_perm a
    rw [selectionSort] at h1 h2
    exact ⟨h1, h2⟩
  · rw [sortingMovesFor, if_neg (by decide), if_neg (by decide), if_pos rfl]
    rw [heapSort_replay]
    exact ⟨heapSort_sorted a, heapSort_perm a⟩
  · rw [sortingMovesFor, if_neg (by decide), if_neg (by decide), if_neg (by decide),
      if_pos rfl]
    rw [quickSort_replay]
    exact ⟨quickSort_sorted a, quickSort_perm a⟩
  · rw [sortingMovesFor, if_neg (by decide), if_pos rfl]
    rw [mergeSortE_replay]
    exact ⟨mergeSortE_sorted a, mergeSortE_perm a⟩

theorem sortingMovesFor_bounds (alg : String) (a : List β)
    (halg : alg ∈ ["bubble", "insertion", "selection", "heap", "quick", "merge"]) :
    ∀ m ∈ sortingMovesFor alg a, MoveInBounds a.length m := by
  simp only [List.mem_cons, List.not_mem_nil, or_false] at halg
  rcases halg with rfl | rfl | rfl | rfl | rfl | rfl
  · rw [sortingMovesFor, if_pos rfl, bubbleSort]
    exact bubbleLoop_bounds a
  · rw [sortingMovesFor, if_neg (by decide), if_neg (by decide), if_neg (by decide),
      if_neg (by decide), if_pos rfl]
    exact insertionSort_bounds a
  · rw [sortingMovesFor, if_neg (by decide), if_neg (by decide), if_neg (by decide),
      if_neg (by decide), if_neg (by decide), if_pos rfl]
    exact selectionSort_bounds a
  · rw [sortingMovesFor, if_neg (by decide), if_neg (by decide), if_pos rfl]
    exact heapSort_bounds a
  · rw [sortingMovesFor, if_neg (by decide), if_neg (by decide), if_neg (by decide),
      if_pos rfl]
    exact quickSort_bounds a
  · rw [sortingMovesFor, if_neg (by decide), if_pos rfl]
    exact mergeSortE_bounds a

theorem sorted_of_inversions_zero : ∀ (l : List β), inversions l = 0 →
    l.Sorted (· ≤ ·) := by
  intro l
  induction l with
  | nil => intro _; exact List.sorted_nil
  | cons x xs ih =>
    intro h
    rw [inversions] at h
    have h1 : xs.countP (fun y => decide (y < x)) = 0 := by omega
    have h2 : inversions xs = 0 := by omega
    rw [List.sorted_cons]
    refine ⟨?_, ih h2⟩
    intro b hb
    rw [List.countP_eq_zero] at h1
    have := h1 b hb
    simp only [decide_eq_true_eq] at this
    exact le_of_not_lt this

/-- Iterating single passes of the bubble loop, to state how many passes
the `do ... while (swapped)` loop can take. -/
def iterPass : ℕ → List β → List β
  | 0, a => a
  | n + 1, a => iterPass n (bubblePass 0 a).2.1

theorem iterPass_inversions_zero : ∀ (n : ℕ) (a : List β), inversions a ≤ n →
    inversions (iterPass n a) = 0 := by
  intro n
  induction n with
  | zero =>
    intro a ha
    show inversions a = 0
    omega
  | succ n ih =>
    intro a ha
    show inversions (iterPass n (bubblePass 0 a).2.1) = 0
    by_cases h : (bubblePass 0 a).2.2 = true
    · exact ih _ (by have := bubblePass_inversions_lt a h; omega)
    · have hfalse : (bubblePass 0 a).2.2 = false := by
        revert h
        cases (bubblePass 0 a).2.2 <;> simp
      rw [bubblePass_not_swapped_eq 0 a hfalse]
      refine ih a ?_
      have := inversions_eq_zero_of_sorted a (bubblePass_not_swapped_sorted 0 a hfalse)
      omega

end Dispatcher

section VizModel

/-- One pending `setTimeout(() => animate(moves), 1)` callback (source
lines 93-95).  The scheduled closure re-invokes the `animate` of the render
that started its chain, and that `animate` closes over that render's own
`array` object — so a chain carries its own array, mutated in place by the
chain's successive steps, distinct from the arrays of chains started by
other renders (each `setArray([...array])` hands later renders a fresh
copy).  `arr` is the chain's array as mutated so far, `moves` the remaining
moves of the chain. -/
structure PendingTick where
  arr : List ℚ
  moves : List (Move ℚ)
  deriving DecidableEq, Repr

/-- The visualizer's state between event-loop turns: `published` is the
snapshot last passed to `setArray([...array])` — the state value that the
currently mounted render (and hence the next button handler) sees — and
`timers` is the FIFO queue of pending `setTimeout` callbacks, each with its
own captured chain array.  Values are rationals, standing for the JS
numbers drawn from `Math.random()`. -/
structure VizState where
  published : List ℚ
  timers : List PendingTick
  deriving DecidableEq, Repr

/-- One invocation of `animate(moves)` (source lines 72-96) running in a
chain whose closed-over array currently holds `arr`: an empty list only
re-renders (`showBars`, no `setArray`); otherwise the first move is shifted
off, the chain's array is mutated in place, `setArray([...array])`
publishes a copy of it, a tone `200 + array[i] * 500` is played for the
post-mutation value at `i` (and, for a swap, also at `j`), and
`animate(rest)` is scheduled via `setTimeout` — a new pending tick closing
over the same chain array.  Returns the new state and the emitted tone
frequencies. -/
def animateStep (s : VizState) (arr : List ℚ) :
    List (Move ℚ) → VizState × List ℚ
  | [] => (s, [])
  | m :: rest =>
    let arr2 := applyMove arr m
    (⟨arr2, s.timers ++ [⟨arr2, rest⟩]⟩,
      match m with
      | Move.swap i j => [200 + getE arr2 i * 500, 200 + getE arr2 j * 500]
      | Move.overwrite i _ => [200 + getE arr2 i * 500])

/-- The browser event loop firing the oldest pending `setTimeout`
callback: the continuation runs `animate` on its own chain's captured
array, regardless of what has been published since. -/
def fireNext (s : VizState) : VizState × List ℚ :=
  match s.timers with
  | [] => (s, [])
  | t :: ts => animateStep ⟨s.published, ts⟩ t.arr t.moves

/-- `sortAndAnimate(algorithm)` (source lines 99-126): the handler of the
current render copies that render's `array` (whose value is the last
published snapshot), runs the selected engine's `switch` branch on the
copy, then calls `animate` synchronously on the collected moves — starting
a new chain whose array is the handler's render's `array` object, again
holding the last published value.  Nothing cancels or clears the existing
timer queue. -/
def sortAndAnimate (s : VizState) (alg : String) : VizState × List ℚ :=
  animateStep s s.published (sortingMovesFor alg s.published)

/-- The tone formula as the spec states it: `frequency = base + value × span`
with `base = 200` and `span = 500` (spec §4.3). -/
def toneFreq (v : ℚ) : ℚ := 200 + 500 * v

/-- Modelled from the spec: the `sort(algorithmName, array)` entry point of
spec §6 with the error behavior of spec §7 — an algorithm name outside the
six-member enumeration fails with `InvalidAlgorithm` and produces no
MoveLog.  (The corresponding failure path is absent from the source, whose
`switch` has only `default: break`.) -/
def specSortDispatch (alg : String) (a : List ℚ) : Except String (List (Move ℚ)) :=
  if alg ∈ ["bubble", "insertion", "selection", "heap", "quick", "merge"] then
    Except.ok (sortingMovesFor alg a)
  else Except.error "InvalidAlgorithm"

end VizModel

/-- Values carrying an origin tag that the `<` comparison cannot see: `key`
models the numeric value (scaled to an integer), `tag` the origin identity.
Used to state merge-sort stability. -/
structure Keyed where
  key : ℤ
  tag : ℕ
  deriving DecidableEq, Repr

instance : LT Keyed := ⟨fun x y => x.key < y.key⟩

instance : Inhabited Keyed := ⟨⟨0, 0⟩⟩

instance keyedDecidableLT : DecidableRel ((· < ·) : Keyed → Keyed → Prop) :=
  fun x y => inferInstanceAs (Decidable (x.key < y.key))

theorem Keyed.lt_iff (x y : Keyed) : x < y ↔ x.key < y.key := Iff.rfl

section Claims

/-- C1: for every one of the six sort engines (bubble, insertion,
selection, heap, quick, merge) and every input array of length at most 100,
replaying the returned MoveLog against the original (pre-sort) array with
`applyMove` yields an array that is non-decreasingly sorted, has the same
length, and holds the same multiset of values as the input. -/
theorem C1_replay_sorts {β : Type} [Inhabited β] [LinearOrder β]
    (alg : String) (a : List β)
    (halg : alg ∈ ["bubble", "insertion", "selection", "heap", "quick", "merge"])
    (hn : a.length ≤ 100) :
    (applyMoves a (sortingMovesFor alg a)).Sorted (· ≤ ·) ∧
    (applyMoves a (sortingMovesFor alg a)).length = a.length ∧
    (applyMoves a (sortingMovesFor alg a)).Perm a :=
  ⟨(sortingMovesFor_spec alg a halg).1, length_applyMoves a _,
    (sortingMovesFor_spec alg a halg).2⟩

/-- Witness for C1 at the merge engine and the concrete array `[3, 1, 2]`. -/
theorem C1_witness :
    ("merge" ∈ ["bubble", "insertion", "selection", "heap", "quick", "merge"]) ∧
    (([3, 1, 2] : List ℤ).length ≤ 100) ∧
    ((applyMoves ([3, 1, 2] : List ℤ)
        (sortingMovesFor "merge" [3, 1, 2])).Sorted (· ≤ ·) ∧
      (applyMoves ([3, 1, 2] : List ℤ)
        (sortingMovesFor "merge" [3, 1, 2])).length = ([3, 1, 2] : List ℤ).length ∧
      (applyMoves ([3, 1, 2] : List ℤ)
        (sortingMovesFor "merge" [3, 1, 2])).Perm [3, 1, 2]) :=
  ⟨by decide, by decide, C1_replay_sorts "merge" [3, 1, 2] (by decide) (by decide)⟩

/-- C5: replaying the MoveLog any of the six engines returns for an
already non-decreasingly sorted array leaves the array unchanged at every
position. -/
theorem C5_idempotent {β : Type} [Inhabited β] [LinearOrder β]
    (alg : String) (a : List β)
    (halg : alg ∈ ["bubble", "insertion", "selection", "heap", "quick", "merge"])
    (hsorted : a.Sorted (· ≤ ·)) :
    applyMoves a (sortingMovesFor alg a) = a :=
  List.eq_of_perm_of_sorted (sortingMovesFor_spec alg a halg).2
    (sortingMovesFor_spec alg a halg).1 hsorted

/-- Witness for C5 at the quick engine and the sorted array `[1, 2, 3]`. -/
theorem C5_witness :
    ("quick" ∈ ["bubble", "insertion", "selection", "heap", "quick", "merge"]) ∧
    (([1, 2, 3] : List ℤ).Sorted (· ≤ ·)) ∧
    applyMoves ([1, 2, 3] : List ℤ) (sortingMovesFor "quick" [1, 2, 3]) = [1, 2, 3] :=
  ⟨by decide, by decide, C5_idempotent "quick" [1, 2, 3] (by decide) (by decide)⟩

/-- C6: every move in the MoveLog returned by any of the six engines for an
array of length `n` mentions only indices smaller than `n` (indices are
naturals, hence at least 0). -/
theorem C6_indices_in_bounds {β : Type} [Inhabited β] [LinearOrder β]
    (alg : String) (a : List β)
    (halg : alg ∈ ["bubble", "insertion", "selection", "heap", "quick", "merge"]) :
    ∀ m ∈ sortingMovesFor alg a, MoveInBounds a.length m :=
  sortingMovesFor_bounds alg a halg

/-- Witness for C6 at the heap engine and the concrete array `[2, 1]`. -/
theorem C6_witness :
    ("heap" ∈ ["bubble", "insertion", "selection", "heap", "quick", "merge"]) ∧
    (∀ m ∈ sortingMovesFor "heap" ([2, 1] : List ℤ),
      MoveInBounds ([2, 1] : List ℤ).length m) :=
  ⟨by decide, C6_indices_in_bounds "heap" [2, 1] (by decide)⟩

/-- C7: the bubble and selection engines each record at most
`n * (n - 1) / 2` Swap moves, and the insertion engine records at most `n`
Overwrite moves plus at most `n * (n - 1) / 2` Swap moves. -/
theorem C7_move_count_bounds {β : Type} [Inhabited β] [LinearOrder β] (a : List β) :
    (bubbleSort a).1.countP Move.isSwap ≤ a.length * (a.length - 1) / 2 ∧
    (selectionSort a).1.countP Move.isSwap ≤ a.length * (a.length - 1) / 2 ∧
    (insertionSort a).1.countP Move.isOverwrite ≤ a.length ∧
    (insertionSort a).1.countP Move.isSwap ≤ a.length * (a.length - 1) / 2 := by
  rw [← Nat.choose_two_right]
  have hins := insertionSort_counts a
  refine ⟨?_, ?_, hins.2, hins.1⟩
  · calc (bubbleSort a).1.countP Move.isSwap ≤ (bubbleSort a).1.length :=
        List.countP_le_length _
      _ = inversions a := by rw [bubbleSort]; exact bubbleLoop_moves_length a
      _ ≤ a.length.choose 2 := inversions_le_choose a
  · calc (selectionSort a).1.countP Move.isSwap ≤ (selectionSort a).1.length :=
        List.countP_le_length _
      _ ≤ a.length.choose 2 := selectionSort_count a

/-- C8: in the heap engine's sift-down, when both children are inside the
heap region, hold equal values, and both exceed the parent, the first
recorded move swaps the parent with the left child. -/
theorem C8_tie_prefers_left_child {β : Type} [Inhabited β] [LinearOrder β]
    (a : List β) (i max : ℕ) (hr : 2 * i + 2 < max)
    (heqc : getE a (2 * i + 1) = getE a (2 * i + 2))
    (hgt : getE a i < getE a (2 * i + 1)) :
    (heapify a i max).1.head? = some (Move.swap i (2 * i + 1)) := by
  have hL : largestIdx a i max = 2 * i + 1 := by
    have h1 : 2 * i + 1 < max ∧ getE a i < getE a (2 * i + 1) := ⟨by omega, hgt⟩
    have h2 : ¬(2 * i + 2 < max ∧ getE a (2 * i + 1) < getE a (2 * i + 2)) := by
      intro hcond
      rw [← heqc] at hcond
      exact absurd hcond.2 (lt_irrefl _)
    rw [largestIdx]
    rw [if_pos h1, if_neg h2]
  rw [heapify_eq, if_pos (by omega), hL]
  rfl

/-- Witness for C8 at the array `[1, 5, 5]`, node 0, heap size 3. -/
theorem C8_witness :
    (2 * 0 + 2 < 3) ∧
    (getE ([1, 5, 5] : List ℤ) (2 * 0 + 1) = getE ([1, 5, 5] : List ℤ) (2 * 0 + 2)) ∧
    (getE ([1, 5, 5] : List ℤ) 0 < getE ([1, 5, 5] : List ℤ) (2 * 0 + 1)) ∧
    (heapify ([1, 5, 5] : List ℤ) 0 3).1.head? = some (Move.swap 0 (2 * 0 + 1)) :=
  ⟨by decide, by decide, by decide,
    C8_tie_prefers_left_child [1, 5, 5] 0 3 (by decide) (by decide) (by decide)⟩

/-- C9: each playback step's tone frequencies are `200 + 500 * v` for the
post-mutation value `v` at each affected index: a swap step emits the tone
for the new value at `i` and then the one for the new value at `j`; an
overwrite step emits the single tone for the new value at `i`. -/
theorem C9_tone_frequencies (s : VizState) (arr : List ℚ) (rest : List (Move ℚ)) :
    (∀ i j, (animateStep s arr (Move.swap i j :: rest)).2 =
      [toneFreq (getE (applyMove arr (Move.swap i j)) i),
       toneFreq (getE (applyMove arr (Move.swap i j)) j)]) ∧
    (∀ i v, (animateStep s arr (Move.overwrite i v :: rest)).2 =
      [toneFreq (getE (applyMove arr (Move.overwrite i v)) i)]) := by
  constructor
  · intro i j
    show [200 + getE (applyMove arr (Move.swap i j)) i * 500,
        200 + getE (applyMove arr (Move.swap i j)) j * 500] = _
    rw [toneFreq, toneFreq, mul_comm, mul_comm (getE _ j) 500]
  · intro i v
    show [200 + getE (applyMove arr (Move.overwrite i v)) i * 500] = _
    rw [toneFreq, mul_comm]

/-- C10: the bubble engine's outer do-while loop terminates: any pass that
reports a swap strictly decreases the inversion count of the working array,
after at most `inversions a` passes the array has no inversions left, the
following pass reports no swap, and a swap-free pass is exactly the loop's
exit. -/
theorem C10_bubble_terminates {β : Type} [Inhabited β] [LinearOrder β] (a : List β) :
    ((bubblePass 0 a).2.2 = true →
      inversions (bubblePass 0 a).2.1 < inversions a) ∧
    inversions (iterPass (inversions a) a) = 0 ∧
    (bubblePass 0 (iterPass (inversions a) a)).2.2 = false ∧
    ((bubblePass 0 a).2.2 = false →
      bubbleLoop a = ((bubblePass 0 a).1, (bubblePass 0 a).2.1)) := by
  have hzero := iterPass_inversions_zero (inversions a) a (le_refl _)
  refine ⟨bubblePass_inversions_lt a, hzero, ?_, ?_⟩
  · have hsorted := sorted_of_inversions_zero _ hzero
    rw [bubblePass_of_sorted 0 _ hsorted]
  · intro hfalse
    rw [bubbleLoop_eq, if_neg (by rw [hfalse]; exact Bool.false_ne_true)]

/-- Witness for C10 at the array `[2, 1]`: its first pass swaps and then
strictly lowers the inversion count, and iterating the pass once reaches an
inversion-free array. -/
theorem C10_witness :
    inversions ((bubblePass 0 ([2, 1] : List ℤ)).2.1) < inversions ([2, 1] : List ℤ) ∧
    inversions (iterPass (inversions ([2, 1] : List ℤ)) ([2, 1] : List ℤ)) = 0 :=
  ⟨(C10_bubble_terminates ([2, 1] : List ℤ)).1
      (by norm_num [bubblePass, bubblePass_nil, bubblePass_single]),
    (C10_bubble_terminates ([2, 1] : List ℤ)).2.1⟩

/-- Amendment of C2: the merge step's comparison is the strict
`left[leftIndex] < right[rightIndex]` of source line 161, so on a TIE the
else branch runs and the RIGHT half's front element is written first —
ties go right, not left, and merge sort is therefore not stable. -/
theorem C2_amended_tie_goes_right {α : Type} [Inhabited α] [LT α]
    [DecidableRel ((· < ·) : α → α → Prop)]
    (k : ℕ) (x y : α) (l r : List α) (h : ¬x < y) :
    (merge k (x :: l) (y :: r)).1
        = Move.overwrite k y :: (merge (k + 1) (x :: l) r).1 ∧
    (merge k (x :: l) (y :: r)).2 = y :: (merge (k + 1) (x :: l) r).2 := by
  rw [merge, if_neg h]
  exact ⟨rfl, rfl⟩

/-- Witness for the C2 amendment at the tie `x = y = 5` over ℤ. -/
theorem C2_amended_witness :
    ¬(5 : ℤ) < 5 ∧
    ((merge 0 ([5] : List ℤ) [5, 7]).1
        = Move.overwrite 0 5 :: (merge 1 ([5] : List ℤ) [7]).1 ∧
      (merge 0 ([5] : List ℤ) [5, 7]).2 = 5 :: (merge 1 ([5] : List ℤ) [7]).2) :=
  ⟨by decide, C2_amended_tie_goes_right 0 5 5 [] [7] (by decide)⟩

/-- C4 counterexample: for the unknown name "quickest" the spec demands an
`InvalidAlgorithm` failure with no MoveLog, but in the source the `switch`
falls to `default: break`, so `sortingMoves` stays `[]` and `animate([])`
runs without any error: the dispatch the spec describes
(`specSortDispatch`) and the dispatch the code performs disagree on this
input, the code silently yielding an (empty) move log and an unchanged
state instead of failing. -/
theorem C4_counterexample :
    specSortDispatch "quickest" [1, 2] = Except.error "InvalidAlgorithm" ∧
    sortingMovesFor "quickest" ([1, 2] : List ℚ) = [] ∧
    Except.ok (sortingMovesFor "quickest" ([1, 2] : List ℚ))
        ≠ specSortDispatch "quickest" [1, 2] ∧
    sortAndAnimate (VizState.mk [1, 2] []) "quickest" = (VizState.mk [1, 2] [], []) := by
  refine ⟨rfl, by decide, ?_, by decide⟩
  intro hcontra
  rw [show specSortDispatch "quickest" [1, 2]
      = Except.error "InvalidAlgorithm" from rfl] at hcontra
  exact Except.noConfusion hcontra

/-- Amendment of C4: for every algorithm name outside the six-member
enumeration the source's `switch` hits `default: break`, so the produced
move list is empty and the synchronous `animate` call leaves the state
unchanged and plays no tone — but no `InvalidAlgorithm` error exists
anywhere in the code; the failure is silent. -/
theorem C4_amended_unknown_is_silent_noop (alg : String) (s : VizState)
    (halg : alg ∉ ["bubble", "insertion", "selection", "heap", "quick", "merge"]) :
    sortingMovesFor alg s.published = [] ∧
    sortAndAnimate s alg = (s, []) := by
  simp only [List.mem_cons, List.not_mem_nil, or_false, not_or] at halg
  obtain ⟨h1, h2, h3, h4, h5, h6⟩ := halg
  have hmv : sortingMovesFor alg s.published = [] := by
    rw [sortingMovesFor, if_neg h1, if_neg h6, if_neg h4, if_neg h5, if_neg h2,
      if_neg h3]
  refine ⟨hmv, ?_⟩
  rw [sortAndAnimate, hmv]
  rfl

/-- Witness for the C4 amendment at the unknown name "foo". -/
theorem C4_amended_witness :
    ("foo" ∉ ["bubble", "insertion", "selection", "heap", "quick", "merge"]) ∧
    (sortingMovesFor "foo" (VizState.mk [1, 2] []).published = [] ∧
      sortAndAnimate (VizState.mk [1, 2] []) "foo" = (VizState.mk [1, 2] [], [])) :=
  ⟨by decide, C4_amended_unknown_is_silent_noop "foo" (VizState.mk [1, 2] []) (by decide)⟩

/-- Amendment of C3: `sortAndAnimate` never cancels anything.  Requesting
algorithm B while algorithm A's playback is still advancing leaves every
pending `setTimeout` continuation of A in the queue (B only appends its
own), and a later event-loop tick still executes the stale chain's next
move — applying it to the array object that A's chain closed over and
publishing the mutated result via `setArray`, clobbering whatever B last
published.  Only the seeding half of the original claim holds: B's engine
runs on a copy of the published array state current at request time, and
B's first move is applied synchronously. -/
theorem C3_amended_no_cancellation (s : VizState) (alg : String) :
    (∃ rest, (sortAndAnimate s alg).1.timers = s.timers ++ rest) ∧
    (sortAndAnimate s alg).1.published
        = applyMoves s.published ((sortingMovesFor alg s.published).take 1) ∧
    (∀ (p arr : List ℚ) (ts : List PendingTick) (m : Move ℚ)
        (rest : List (Move ℚ)),
      (fireNext ⟨p, PendingTick.mk arr (m :: rest) :: ts⟩).1.published
          = applyMove arr m ∧
      (fireNext ⟨p, PendingTick.mk arr (m :: rest) :: ts⟩).1.timers
          = ts ++ [PendingTick.mk (applyMove arr m) rest]) := by
  refine ⟨?_, ?_, fun p arr ts m rest => ⟨rfl, rfl⟩⟩
  · rw [sortAndAnimate]
    cases hmv : sortingMovesFor alg s.published with
    | nil => exact ⟨[], by simp [animateStep]⟩
    | cons m rest =>
      exact ⟨[PendingTick.mk (applyMove s.published m) rest], by simp [animateStep]⟩
  · rw [sortAndAnimate]
    cases hmv : sortingMovesFor alg s.published with
    | nil => simp [animateStep, applyMoves]
    | cons m rest => simp [animateStep, applyMoves]

/-- C3 counterexample: start from published array `[3, 2, 1]` with no
pending timers.  Requesting bubble sort computes the log
`[swap 0 1, swap 1 2, swap 0 1]`, applies its first move to the handler's
render's array (publishing `[2, 3, 1]`), and leaves the chain's
continuation pending with its captured array `[2, 3, 1]` and two remaining
moves.  Requesting selection sort NOW — with bubble's playback at 1 of 3
moves — seeds its engine from the published `[2, 3, 1]` (the seeding half
of the claim, which holds), computes `[swap 0 2, swap 1 2]`, applies the
first move and publishes `[1, 3, 2]`; bubble's pending tick is NOT
cancelled.  The next event-loop tick then fires bubble's stale
continuation: it applies `swap 1 2` to its own captured `[2, 3, 1]`,
publishes the result `[2, 1, 3]` — overwriting selection's published
`[1, 3, 2]` — and schedules yet another stale tick.  A remaining move of
algorithm A executes and takes effect after B started, refuting the
claimed cancellation. -/
theorem C3_counterexample :
    (sortAndAnimate (VizState.mk [3, 2, 1] []) "bubble").1
        = VizState.mk [2, 3, 1]
            [PendingTick.mk [2, 3, 1] [Move.swap 1 2, Move.swap 0 1]] ∧
    (sortAndAnimate (VizState.mk [2, 3, 1]
          [PendingTick.mk [2, 3, 1] [Move.swap 1 2, Move.swap 0 1]])
        "selection").1
        = VizState.mk [1, 3, 2]
            [PendingTick.mk [2, 3, 1] [Move.swap 1 2, Move.swap 0 1],
             PendingTick.mk [1, 3, 2] [Move.swap 1 2]] ∧
    (fireNext (VizState.mk [1, 3, 2]
          [PendingTick.mk [2, 3, 1] [Move.swap 1 2, Move.swap 0 1],
           PendingTick.mk [1, 3, 2] [Move.swap 1 2]])).1
        = VizState.mk [2, 1, 3]
            [PendingTick.mk [1, 3, 2] [Move.swap 1 2],
             PendingTick.mk [2, 1, 3] [Move.swap 0 1]] ∧
    (fireNext (VizState.mk [1, 3, 2]
          [PendingTick.mk [2, 3, 1] [Move.swap 1 2, Move.swap 0 1],
           PendingTick.mk [1, 3, 2] [Move.swap 1 2]])).1.published
        ≠ [1, 3, 2] := by
  have hbubble : sortingMovesFor "bubble" ([3, 2, 1] : List ℚ)
      = [Move.swap 0 1, Move.swap 1 2, Move.swap 0 1] := by
    have hp1 : bubblePass 0 ([3, 2, 1] : List ℚ)
        = ([Move.swap 0 1, Move.swap 1 2], [2, 1, 3], true) := by
      norm_num [bubblePass, bubblePass_nil, bubblePass_single]
    have hp2 : bubblePass 0 ([2, 1, 3] : List ℚ)
        = ([Move.swap 0 1], [1, 2, 3], true) := by
      norm_num [bubblePass, bubblePass_nil, bubblePass_single]
    have hp3 : bubblePass 0 ([1, 2, 3] : List ℚ) = ([], [1, 2, 3], false) := by
      norm_num [bubblePass, bubblePass_nil, bubblePass_single]
    have hl3 : bubbleLoop ([1, 2, 3] : List ℚ) = ([], [1, 2, 3]) := by
      rw [bubbleLoop_eq, hp3]
      norm_num
    have hl2 : bubbleLoop ([2, 1, 3] : List ℚ) = ([Move.swap 0 1], [1, 2, 3]) := by
      rw [bubbleLoop_eq, hp2]
      simp [hl3]
    have hl1 : bubbleLoop ([3, 2, 1] : List ℚ)
        = ([Move.swap 0 1, Move.swap 1 2, Move.swap 0 1], [1, 2, 3]) := by
      rw [bubbleLoop_eq, hp1]
      simp [hl2]
    rw [sortingMovesFor, if_pos rfl, bubbleSort, hl1]
  have hsel : sortingMovesFor "selection" ([2, 3, 1] : List ℚ)
      = [Move.swap 0 2, Move.swap 1 2] := by
    have hf1 : findMin ([2, 3, 1] : List ℚ) 0 1 = 2 := by
      rw [findMin, dif_pos (by norm_num), if_neg (by norm_num [getE])]
      rw [findMin, dif_pos (by norm_num), if_pos (by norm_num [getE])]
      rw [findMin, dif_neg (by norm_num)]
    have hf2 : findMin ([1, 3, 2] : List ℚ) 1 2 = 2 := by
      rw [findMin, dif_pos (by norm_num), if_pos (by norm_num [getE])]
      rw [findMin, dif_neg (by norm_num)]
    have happly1 : applyMove ([2, 3, 1] : List ℚ) (Move.swap 0 2) = [1, 3, 2] := by
      norm_num [applyMove, getE]
    have happly2 : applyMove ([1, 3, 2] : List ℚ) (Move.swap 1 2) = [1, 2, 3] := by
      norm_num [applyMove, getE]
    have hs3 : selOuter ([1, 2, 3] : List ℚ) 2 = ([], [1, 2, 3]) := by
      rw [selOuter_eq, if_neg (by norm_num)]
    have hs2 : selOuter ([1, 3, 2] : List ℚ) 1 = ([Move.swap 1 2], [1, 2, 3]) := by
      rw [selOuter_eq, if_pos (by norm_num), hf2]
      rw [if_pos (by norm_num), happly2, hs3]
    have hs1 : selOuter ([2, 3, 1] : List ℚ) 0
        = ([Move.swap 0 2, Move.swap 1 2], [1, 2, 3]) := by
      rw [selOuter_eq, if_pos (by norm_num), hf1]
      rw [if_pos (by norm_num), happly1, hs2]
    rw [show sortingMovesFor "selection" ([2, 3, 1] : List ℚ)
        = (selectionSort ([2, 3, 1] : List ℚ)).1 from rfl, selectionSort, hs1]
  refine ⟨?_, ?_, by decide, by decide⟩
  · show (animateStep (VizState.mk [3, 2, 1] []) [3, 2, 1]
        (sortingMovesFor "bubble" [3, 2, 1])).1 = _
    rw [hbubble]
    decide
  · show (animateStep (VizState.mk [2, 3, 1]
          [PendingTick.mk [2, 3, 1] [Move.swap 1 2, Move.swap 0 1]]) [2, 3, 1]
        (sortingMovesFor "selection" [2, 3, 1])).1 = _
    rw [hsel]
    decide

/-- C2 counterexample: on the tagged input `[0.5a, 0.3, 0.5b]` (scaled to
integer keys `[⟨5,1⟩, ⟨3,2⟩, ⟨5,3⟩]`, where the tag records origin and the
`<` comparison sees only the key), the merge engine's final sequence is
`[⟨3,2⟩, ⟨5,3⟩, ⟨5,1⟩]`: the two equal-keyed elements come out in the
order 0.5b, 0.5a — reversed from the input — so the tie does NOT go to the
left half and merge sort is not stable, refuting C2. -/
theorem C2_counterexample :
    (mergeSortE ([⟨5, 1⟩, ⟨3, 2⟩, ⟨5, 3⟩] : List Keyed)).2
        = [⟨3, 2⟩, ⟨5, 3⟩, ⟨5, 1⟩] ∧
    (mergeSortE ([⟨5, 1⟩, ⟨3, 2⟩, ⟨5, 3⟩] : List Keyed)).2
        ≠ [⟨3, 2⟩, ⟨5, 1⟩, ⟨5, 3⟩] := by
  have hm51 : mergeSortE ([⟨5, 1⟩] : List Keyed) = ([], [⟨5, 1⟩]) := by
    rw [mergeSortE, if_pos (by norm_num)]
  have hm32 : mergeSortE ([⟨3, 2⟩] : List Keyed) = ([], [⟨3, 2⟩]) := by
    rw [mergeSortE, if_pos (by norm_num)]
  have hm53 : mergeSortE ([⟨5, 3⟩] : List Keyed) = ([], [⟨5, 3⟩]) := by
    rw [mergeSortE, if_pos (by norm_num)]
  have hm2 : mergeSortE ([⟨3, 2⟩, ⟨5, 3⟩] : List Keyed)
      = ([Move.overwrite 0 ⟨3, 2⟩, Move.overwrite 1 ⟨5, 3⟩], [⟨3, 2⟩, ⟨5, 3⟩]) := by
    rw [mergeSortE, if_neg (by norm_num)]
    simp only [show ([⟨3, 2⟩, ⟨5, 3⟩] : List Keyed).take
          (([⟨3, 2⟩, ⟨5, 3⟩] : List Keyed).length / 2) = [⟨3, 2⟩] from rfl,
      show ([⟨3, 2⟩, ⟨5, 3⟩] : List Keyed).drop
          (([⟨3, 2⟩, ⟨5, 3⟩] : List Keyed).length / 2) = [⟨5, 3⟩] from rfl,
      hm32, hm53]
    simp [merge, writeMoves, Keyed.lt_iff]
  have hm3 : (mergeSortE ([⟨5, 1⟩, ⟨3, 2⟩, ⟨5, 3⟩] : List Keyed)).2
      = [⟨3, 2⟩, ⟨5, 3⟩, ⟨5, 1⟩] := by
    rw [mergeSortE, if_neg (by norm_num)]
    simp only [show ([⟨5, 1⟩, ⟨3, 2⟩, ⟨5, 3⟩] : List Keyed).take
          (([⟨5, 1⟩, ⟨3, 2⟩, ⟨5, 3⟩] : List Keyed).length / 2) = [⟨5, 1⟩] from rfl,
      show ([⟨5, 1⟩, ⟨3, 2⟩, ⟨5, 3⟩] : List Keyed).drop
          (([⟨5, 1⟩, ⟨3, 2⟩, ⟨5, 3⟩] : List Keyed).length / 2)
          = [⟨3, 2⟩, ⟨5, 3⟩] from rfl,
      hm51, hm2]
    simp [merge, writeMoves, Keyed.lt_iff]
  refine ⟨hm3, ?_⟩
  rw [hm3]
  decide

end Claims

end SortViz